import Mathlib

/-!
Shallow embedding of the tree addressing / traversal / windowing engine of the
`ratatui_tree` crate (`src/crates/ratatui_tree/src/{index,iter,view,widget}.rs`),
together with proofs of the specification claims about it.

Conventions of the embedding:
* `usize` becomes `Nat`; `saturating_sub` is `Nat` subtraction, `saturating_add`
  is `Nat` addition (no overflow in the model).
* A `TreeItem`'s rendered content is abstracted to its `height` (the only thing
  the engine reads from it); styling fields, which no claim touches, are omitted.
* The `TreeView` trait only ever uses `iter_children`, so every trait method is
  embedded as a function of the receiver's children list (`List TreeItem`).
* Loops whose counter is not structurally decreasing carry an explicit fuel
  argument; the fuel passed at each call site is proved sufficient, so the
  models agree with the Rust loops on every input on which the latter return.
* `unwrap` calls that are unreachable (guarded by an invariant) are modelled
  with a default that the surrounding proofs show is never used.
-/

namespace Rebased

-- MARK: TreeItem (widget.rs)

/-- A tree item: the `content` field is abstracted to its height. -/
inductive TreeItem where
  | mk (height : Nat) (children : List TreeItem)

def TreeItem.height : TreeItem → Nat
  | .mk h _ => h

def TreeItem.children : TreeItem → List TreeItem
  | .mk _ cs => cs

mutual

/-- Number of nodes of a tree (used as a termination/fuel measure). -/
def TreeItem.size : TreeItem → Nat
  | .mk _ cs => 1 + sizeList cs

def sizeList : List TreeItem → Nat
  | [] => 0
  | c :: cs => TreeItem.size c + sizeList cs

end

theorem sizeList_eq (cs : List TreeItem) : sizeList cs = (cs.map TreeItem.size).sum := by
  induction cs with
  | nil => rfl
  | cons c cs ih => simp [sizeList, ih]

theorem TreeItem.size_pos (t : TreeItem) : 0 < t.size := by
  cases t with
  | mk h cs =>
    show 0 < 1 + sizeList cs
    omega

theorem size_le_sizeList {c : TreeItem} {cs : List TreeItem} (h : c ∈ cs) :
    c.size ≤ sizeList cs := by
  induction cs with
  | nil => cases h
  | cons d ds ih =>
    show _ ≤ d.size + sizeList ds
    rcases List.mem_cons.mp h with rfl | h
    · omega
    · have := ih h
      omega

/-- Structural induction principle for the nested inductive `TreeItem`. -/
theorem TreeItem.inductOn (P : TreeItem → Prop)
    (step : ∀ (h : Nat) (cs : List TreeItem), (∀ c ∈ cs, P c) → P (.mk h cs)) :
    ∀ t, P t := by
  have main : ∀ n t, TreeItem.size t ≤ n → P t := by
    intro n
    induction n with
    | zero => intro t ht; have := t.size_pos; omega
    | succ n ih =>
      intro t ht
      cases t with
      | mk h cs =>
        refine step h cs (fun c hc => ih c ?_)
        have h1 := size_le_sizeList hc
        simp [TreeItem.size] at ht
        omega
  exact fun t => main t.size t le_rfl

-- MARK: TreeIndex (index.rs)

/-- `TreeIndex(Vec<usize>)`: an address, a path of child offsets. -/
structure TreeIndex where
  indices : List Nat
deriving DecidableEq, Repr

/-- `TreeIndex::new` / `new_at`: a single-element address. -/
def TreeIndex.new_at (i : Nat) : TreeIndex := ⟨[i]⟩

/-- `first(&self)`: the leading offset (the source unwraps on the non-empty
invariant; the default is never used on invariant-respecting addresses). -/
def TreeIndex.first (x : TreeIndex) : Nat := x.indices.headD 0

/-- `last(&self)`. -/
def TreeIndex.last (x : TreeIndex) : Nat := x.indices.getLastD 0

/-- `iter_rest`: all offsets but the first. -/
def TreeIndex.iter_rest (x : TreeIndex) : List Nat := x.indices.tail

/-- `len`. -/
def TreeIndex.len (x : TreeIndex) : Nat := x.indices.length

/-- `is_root`. -/
def TreeIndex.is_root (x : TreeIndex) : Bool := x.indices.length == 1

/-- `push(&mut self, index)`. -/
def TreeIndex.push (x : TreeIndex) (i : Nat) : TreeIndex := ⟨x.indices ++ [i]⟩

/-- `pushed(&self, index)`. -/
def TreeIndex.pushed (x : TreeIndex) (i : Nat) : TreeIndex := x.push i

/-- `pop(&mut self)`: returns the popped element and the updated index;
refuses to pop the only element. -/
def TreeIndex.pop (x : TreeIndex) : Option Nat × TreeIndex :=
  if x.indices.length > 1 then (x.indices.getLast?, ⟨x.indices.dropLast⟩) else (none, x)

/-- `popped(&self)`. -/
def TreeIndex.popped (x : TreeIndex) : TreeIndex := x.pop.2

/-- `Vec::resize(place, 0)`: truncate or pad with zeros to length `place`. -/
def resizeZero (l : List Nat) (place : Nat) : List Nat :=
  if place ≤ l.length then l.take place else l ++ List.replicate (place - l.length) 0

/-- `splice(&mut self, place, index)`: resize to `place` then push `index`. -/
def TreeIndex.splice (x : TreeIndex) (place i : Nat) : TreeIndex :=
  ⟨resizeZero x.indices place ++ [i]⟩

/-- `spliced(&self, place, index)`. -/
def TreeIndex.spliced (x : TreeIndex) (place i : Nat) : TreeIndex := x.splice place i

/-- `floor(&mut self, place)`: resize to `place + 1` (saturating add). -/
def TreeIndex.floor (x : TreeIndex) (place : Nat) : TreeIndex :=
  ⟨resizeZero x.indices (place + 1)⟩

/-- `floored(&self, place)`. -/
def TreeIndex.floored (x : TreeIndex) (place : Nat) : TreeIndex := x.floor place

-- MARK: lexicographic comparison (derived `Ord` on `Vec<usize>`)

/-- Three-way lexicographic comparison of addresses, as Rust's derived
`Ord` on `Vec<usize>` computes it. -/
def lexCompare : List Nat → List Nat → Ordering
  | [], [] => .eq
  | [], _ :: _ => .lt
  | _ :: _, [] => .gt
  | a :: as', b :: bs' =>
    if a < b then .lt else if b < a then .gt else lexCompare as' bs'

/-- Strict lexicographic order on addresses. -/
def lexLt (a b : List Nat) : Prop := lexCompare a b = .lt

instance (a b : List Nat) : Decidable (lexLt a b) := by
  unfold lexLt; infer_instance

theorem lexCompare_refl (a : List Nat) : lexCompare a a = .eq := by
  induction a with
  | nil => rfl
  | cons x xs ih => simp [lexCompare, ih]

theorem lexCompare_eq_iff (a b : List Nat) : lexCompare a b = .eq ↔ a = b := by
  induction a generalizing b with
  | nil => cases b <;> simp [lexCompare]
  | cons x xs ih =>
    cases b with
    | nil => simp [lexCompare]
    | cons y ys =>
      by_cases hxy : x < y
      · simp [lexCompare, hxy]
        omega
      · by_cases hyx : y < x
        · simp [lexCompare, hxy, hyx]
          omega
        · have hxyeq : x = y := by omega
          subst hxyeq
          simp [lexCompare, hxy, hyx, ih]

theorem lexCompare_swap (a b : List Nat) :
    lexCompare b a = (lexCompare a b).swap := by
  induction a generalizing b with
  | nil => cases b <;> simp [lexCompare, Ordering.swap]
  | cons x xs ih =>
    cases b with
    | nil => simp [lexCompare, Ordering.swap]
    | cons y ys =>
      by_cases hxy : x < y
      · have : ¬ y < x := by omega
        simp [lexCompare, hxy, this, Ordering.swap]
      · by_cases hyx : y < x
        · simp [lexCompare, hxy, hyx, Ordering.swap]
        · simp [lexCompare, hxy, hyx, ih]

theorem lexLt_trans {a b c : List Nat} (h1 : lexLt a b) (h2 : lexLt b c) : lexLt a c := by
  unfold lexLt at *
  induction a generalizing b c with
  | nil =>
    cases c with
    | nil =>
      cases b with
      | nil => exact h1
      | cons y ys => simp [lexCompare] at h2
    | cons z zs => rfl
  | cons x xs ih =>
    cases b with
    | nil => simp [lexCompare] at h1
    | cons y ys =>
      cases c with
      | nil => simp [lexCompare] at h2
      | cons z zs =>
        simp only [lexCompare] at h1 h2 ⊢
        by_cases hxy : x < y
        · by_cases hyz : y < z
          · have hxz : x < z := by omega
            simp [hxz]
          · by_cases hzy : z < y
            · simp [hyz, hzy] at h2
            · have : y = z := by omega
              subst this
              simp [hxy]
        · by_cases hyx : y < x
          · simp [hxy, hyx] at h1
          · have hxyeq : x = y := by omega
            subst hxyeq
            simp only [lt_irrefl, if_false] at h1
            by_cases hxz : x < z
            · simp [hxz]
            · by_cases hzx : z < x
              · simp [hxz, hzx] at h2
              · have hxzeq : x = z := by omega
                subst hxzeq
                simp only [lt_irrefl, if_false] at h2 ⊢
                exact ih h1 h2

theorem lexLt_irrefl (a : List Nat) : ¬ lexLt a a := by
  unfold lexLt
  simp [lexCompare_refl]

/-- A proper extension is lexicographically greater. -/
theorem lexLt_append (a : List Nat) {rest : List Nat} (h : rest ≠ []) :
    lexLt a (a ++ rest) := by
  unfold lexLt
  induction a with
  | nil => cases rest with
    | nil => exact absurd rfl h
    | cons r rs => rfl
  | cons x xs ih => simpa [lexCompare] using ih

/-- Extensions of `a ++ [i]` are lexicographically below extensions of
`a ++ [j]` when `i < j`. -/
theorem lexLt_extend {a s t : List Nat} {i j : Nat} (hij : i < j) :
    lexLt (a ++ i :: s) (a ++ j :: t) := by
  unfold lexLt
  induction a with
  | nil => simp [lexCompare, hij]
  | cons x xs ih => simpa [lexCompare] using ih

-- MARK: TreeView queries (view.rs); the receiver is its children list

/-- `get_child(&self, index)`: `iter_children().nth(index)`. -/
def get_child (cs : List TreeItem) (i : Nat) : Option TreeItem := cs[i]?

/-- `len_children`. -/
def len_children (cs : List TreeItem) : Nat := cs.length

/-- `is_empty`. -/
def is_empty (cs : List TreeItem) : Bool := cs.length == 0

mutual

/-- `len_descendants`, per node. -/
def TreeItem.len_descendants : TreeItem → Nat
  | .mk _ cs => lenDescList cs

/-- `len_descendants(&self)`: `Σ (1 + child.len_descendants())` over children. -/
def lenDescList : List TreeItem → Nat
  | [] => 0
  | c :: cs => (1 + TreeItem.len_descendants c) + lenDescList cs

end

/-- The cursor walk of `get_descendant` over `iter_rest`. -/
def descend (t : TreeItem) : List Nat → Option TreeItem
  | [] => some t
  | i :: rest =>
    match get_child t.children i with
    | some c => descend c rest
    | none => none

/-- `get_descendant(&self, index)`: resolve an address by repeated child access. -/
def get_descendant (cs : List TreeItem) (ix : TreeIndex) : Option TreeItem :=
  match get_child cs ix.first with
  | some c => descend c ix.iter_rest
  | none => none

-- MARK: traversal engine (iter.rs)

/-- Stack entries pushed for one node's children in `TreeIterWithIndex::next`
(`enumerate` starting at `k`); reversal plus `Vec` pop order make the head of
this list the next item popped. -/
def pushChildren (ix : TreeIndex) : Nat → List TreeItem → List (TreeIndex × TreeItem)
  | _, [] => []
  | k, c :: cs => (ix.pushed k, c) :: pushChildren ix (k + 1) cs

/-- The seed stack of `TreeIterWithIndex::new_from`. -/
def initStack : Nat → List TreeItem → List (TreeIndex × TreeItem)
  | _, [] => []
  | k, c :: cs => (TreeIndex.new_at k, c) :: initStack (k + 1) cs

/-- Total size of the trees on the stack: an exact step count for the iterator. -/
def stackSize : List (TreeIndex × TreeItem) → Nat
  | [] => 0
  | (_, t) :: rest => t.size + stackSize rest

/-- One fuelled run of the `TreeIterWithIndex` loop: pop an entry, yield it,
push its children. The fuel-exhaustion branch is unreachable at the fuel
`runIter` supplies (`runIterF_congr` below). -/
def runIterF : Nat → List (TreeIndex × TreeItem) → List (TreeIndex × TreeItem)
  | _, [] => []
  | 0, _ :: _ => []
  | fuel + 1, (ix, t) :: rest => (ix, t) :: runIterF fuel (pushChildren ix 0 t.children ++ rest)

/-- Exhaustively run `TreeIterWithIndex` from a stack. -/
def runIter (s : List (TreeIndex × TreeItem)) : List (TreeIndex × TreeItem) :=
  runIterF (stackSize s) s

/-- `iter_descendants_with_index`: address-annotated pre-order traversal. -/
def iter_descendants_with_index (cs : List TreeItem) : List (TreeIndex × TreeItem) :=
  runIter (initStack 0 cs)

/-- Stack entries of the plain `TreeIter`. -/
def stackSizeP : List TreeItem → Nat
  | [] => 0
  | t :: rest => t.size + stackSizeP rest

/-- One fuelled run of the plain `TreeIter` loop. -/
def runPlainF : Nat → List TreeItem → List TreeItem
  | _, [] => []
  | 0, _ :: _ => []
  | fuel + 1, t :: rest => t :: runPlainF fuel (t.children ++ rest)

/-- Exhaustively run `TreeIter` from a stack. -/
def runPlain (s : List TreeItem) : List TreeItem := runPlainF (stackSizeP s) s

/-- `iter_descendants`: plain pre-order traversal (`TreeIter::new_from`). -/
def iter_descendants (cs : List TreeItem) : List TreeItem := runPlain cs

/-- `get_descendant_infix(&self, offset)`: `iter_descendants().nth(offset)`. -/
def get_descendant_infix (cs : List TreeItem) (offset : Nat) : Option TreeItem :=
  (iter_descendants cs)[offset]?

/-- `find_index_of_offset`: `iter_descendants_with_index().nth(offset)`. -/
def find_index_of_offset (cs : List TreeItem) (offset : Nat) : Option (TreeIndex × TreeItem) :=
  (iter_descendants_with_index cs)[offset]?

/-- The `enumerate().find_map(..)` scan of `find_offset_of_index`: stop at the
first traversal address that is lexicographically ≥ the target. -/
def findOffsetScan (target : TreeIndex) : Nat → List (TreeIndex × TreeItem) →
    Option (Nat × TreeItem)
  | _, [] => none
  | off, (i, item) :: rest =>
    match lexCompare i.indices target.indices with
    | .lt => findOffsetScan target (off + 1) rest
    | .eq => some (off, item)
    | .gt => none

/-- `find_offset_of_index(&self, index)`: linear pre-order position of an address. -/
def find_offset_of_index (cs : List TreeItem) (ix : TreeIndex) : Option (Nat × TreeItem) :=
  findOffsetScan ix 0 (iter_descendants_with_index cs)

-- MARK: navigation queries (view.rs)

/-- The clamping walk of `find_nearest_to` over `origin.iter_rest()`. -/
def nearestLoop : TreeIndex → TreeItem → List Nat → Option (TreeIndex × TreeItem)
  | index, cursor, [] => some (index, cursor)
  | index, cursor, i :: rest =>
    if is_empty cursor.children then some (index, cursor)
    else
      let clamped := min i (len_children cursor.children - 1)
      match get_child cursor.children clamped with
      | some next => nearestLoop (index.pushed clamped) next rest
      | none => none

/-- `find_nearest_to(&self, origin)`: repair a stale address by clamping depth
by depth (the source's `unwrap`s are modelled as a `none` that `C3` proves
unreachable). -/
def find_nearest_to (cs : List TreeItem) (origin : TreeIndex) :
    Option (TreeIndex × TreeItem) :=
  if is_empty cs then none
  else
    let clamped := min origin.first (len_children cs - 1)
    match get_child cs clamped with
    | some cursor => nearestLoop (TreeIndex.new_at clamped) cursor origin.iter_rest
    | none => none

/-- `find_first_child`. -/
def find_first_child (cs : List TreeItem) : Option (Nat × TreeItem) :=
  (get_child cs 0).map (fun child => (0, child))

/-- `find_first_descendant`. -/
def find_first_descendant (cs : List TreeItem) : Option (TreeIndex × TreeItem) :=
  (get_child cs 0).map (fun child => (TreeIndex.new_at 0, child))

/-- The descending loop of `find_last_descendant_in`: keep taking the last
child until a leaf; fuelled by the cursor's size. -/
def lastDescLoop : Nat → TreeIndex → TreeItem → Option (TreeIndex × TreeItem)
  | 0, _, _ => none
  | fuel + 1, index, cursor =>
    if is_empty cursor.children then some (index, cursor)
    else
      let i := len_children cursor.children - 1
      match get_child cursor.children i with
      | some c => lastDescLoop fuel (index.push i) c
      | none => none

/-- `find_last_descendant_in(&self, index)`. -/
def find_last_descendant_in (cs : List TreeItem) (index : TreeIndex) :
    Option (TreeIndex × TreeItem) :=
  match get_descendant cs index with
  | some cursor => lastDescLoop cursor.size index cursor
  | none => none

/-- `find_last_child(&self)`: as written in the source, it pairs the last valid
offset with the child at offset `0`. -/
def find_last_child (cs : List TreeItem) : Option (Nat × TreeItem) :=
  let i := len_children cs - 1
  (get_child cs 0).map (fun child => (i, child))

/-- `find_last_descendant(&self)`. -/
def find_last_descendant (cs : List TreeItem) : Option (TreeIndex × TreeItem) :=
  find_last_descendant_in cs (TreeIndex.new_at (len_children cs - 1))

/-- `find_previous_child_to(&self, index)`. -/
def find_previous_child_to (cs : List TreeItem) (i : Nat) : Option (Nat × TreeItem) :=
  if i > 0 then (get_child cs (i - 1)).map (fun child => (i - 1, child))
  else none

/-- `find_next_child_to(&self, index)`. -/
def find_next_child_to (cs : List TreeItem) (i : Nat) : Option (Nat × TreeItem) :=
  if i + 1 < len_children cs then (get_child cs (i + 1)).map (fun child => (i + 1, child))
  else none

/-- The cursor loop of `find_previous_relative_of` over `index.iter().skip(1)`:
`previous` is rewritten at every level. -/
def prevRelLoop (cs : List TreeItem) :
    TreeIndex → TreeItem → Option (TreeIndex × TreeItem) → List Nat →
    Option (TreeIndex × TreeItem)
  | _, _, previous, [] => previous
  | cursor_index, cursor, _, i :: rest =>
    let previous :=
      match find_previous_child_to cursor.children i with
      | some (j, _) => find_last_descendant_in cs (cursor_index.pushed j)
      | none => some (cursor_index, cursor)
    match get_child cursor.children i with
    | some c => prevRelLoop cs (cursor_index.push i) c previous rest
    | none => none

/-- `find_previous_relative_of(&self, index)`: previous node in full pre-order. -/
def find_previous_relative_of (cs : List TreeItem) (index : TreeIndex) :
    Option (TreeIndex × TreeItem) :=
  match get_child cs index.first with
  | none => none
  | some cursor =>
    let previous :=
      (find_previous_child_to cs index.first).bind
        (fun x => find_last_descendant_in cs (index.spliced 0 x.1))
    prevRelLoop cs (TreeIndex.new_at index.first) cursor previous index.iter_rest

/-- The cursor loop of `find_next_relative_of` over
`index.iter().enumerate().skip(1)`: `next` is overwritten only when a deeper
next sibling exists. -/
def nextRelLoop (index : TreeIndex) :
    TreeItem → Nat → Option (TreeIndex × TreeItem) → List Nat →
    Option (TreeIndex × TreeItem)
  | cursor, _, next, [] =>
    ((find_first_child cursor.children).map
      (fun x => (index.pushed x.1, x.2))).or next
  | cursor, place, next, i :: rest =>
    let next :=
      match find_next_child_to cursor.children i with
      | some (x, sib) => some (index.spliced place x, sib)
      | none => next
    match get_child cursor.children i with
    | some c => nextRelLoop index c (place + 1) next rest
    | none => none

/-- `find_next_relative_of(&self, index)`: next node in full pre-order. -/
def find_next_relative_of (cs : List TreeItem) (index : TreeIndex) :
    Option (TreeIndex × TreeItem) :=
  match get_child cs index.first with
  | none => none
  | some cursor =>
    let next :=
      (find_next_child_to cs index.first).map
        (fun x => (index.spliced 0 x.1, x.2))
    nextRelLoop index cursor 1 next index.iter_rest

/-- `find_parent_of(&self, index)`. -/
def find_parent_of (cs : List TreeItem) (index : TreeIndex) :
    Option (TreeIndex × TreeItem) :=
  match index.pop with
  | (some _, popped) => (get_descendant cs popped).map (fun parent => (popped, parent))
  | (none, _) => none

-- MARK: widget (widget.rs): Tree, selection movement, windowing

/-- The `Tree` widget: rendering/styling fields that no claim touches are
omitted; `children` and `scroll_padding` are the fields the engine reads. -/
structure Tree where
  children : List TreeItem
  scroll_padding : Nat

/-- `Tree::select_up(&self, selected)`. -/
def select_up (t : Tree) (selected : Option TreeIndex) : Option TreeIndex :=
  match selected with
  | none => (find_first_child t.children).map (fun r => TreeIndex.new_at r.1)
  | some index =>
    match find_previous_relative_of t.children index with
    | some (next, _) => some next
    | none => some index

/-- `Tree::select_down(&self, selected)`. -/
def select_down (t : Tree) (selected : Option TreeIndex) : Option TreeIndex :=
  match selected with
  | none => (find_last_descendant t.children).map (fun r => r.1)
  | some index =>
    match find_next_relative_of t.children index with
    | some (next, _) => some next
    | none => some index

/-- `Tree::select_parent(&self, selected)`. -/
def select_parent (t : Tree) (selected : Option TreeIndex) : Option TreeIndex :=
  match selected with
  | none => (find_first_child t.children).map (fun r => TreeIndex.new_at r.1)
  | some index =>
    match find_parent_of t.children index with
    | some (next, _) => some next
    | none => some index

/-- The pre-order heights the windowing reads through `get_descendant_infix`. -/
def heightsOf (cs : List TreeItem) : List Nat :=
  (iter_descendants cs).map TreeItem.height

/-- Sum of `heights` over the half-open offset range `[lo, hi)` (missing
offsets contribute `0`, as they never arise in reachable states). -/
def sumRange (heights : List Nat) (lo hi : Nat) : Nat :=
  ((List.range (hi - lo)).map (fun k => heights.getD (lo + k) 0)).sum

/-- The `for` loop of `get_items_bounds` that counts how many items starting
at the offset fit in `max_height`; returns the count and the final
`height_from_offset`. -/
def countFit (maxH : Nat) : List Nat → Nat → Nat × Nat
  | [], acc => (0, acc)
  | h :: rest, acc =>
    if acc + h > maxH then (0, acc)
    else
      let r := countFit maxH rest (acc + h)
      (r.1 + 1, r.2)

/-- The padding-reduction loop of `apply_scroll_padding_to_selected_index`:
the largest `p ≤ scroll_padding` whose centred height fits, else `0`. -/
def padReduce (heights : List Nat) (maxH lvi sel : Nat) : Nat → Nat
  | 0 => 0
  | p + 1 =>
    if sumRange heights (sel - (p + 1)) (min (sel + (p + 1)) lvi + 1) ≤ maxH then p + 1
    else padReduce heights maxH lvi sel p

/-- `apply_scroll_padding_to_selected_index`. -/
def apply_scroll_padding_to_selected_index (t : Tree) (selected : Option TreeIndex)
    (max_height first_visible last_visible : Nat) : Option Nat :=
  let last_valid_index := lenDescList t.children - 1
  match selected.bind (fun ix => find_offset_of_index t.children ix) with
  | none => none
  | some r =>
    let sel := min r.1 last_valid_index
    let p := padReduce (heightsOf t.children) max_height last_valid_index sel t.scroll_padding
    some (min
      (if min (sel + p) last_valid_index ≥ last_visible then sel + p
       else if sel - p < first_visible then sel - p
       else sel)
      last_valid_index)

/-- The inner `while height_from_offset > max_height` of the forward expansion:
drop leading items. Fuelled; `get_items_bounds` passes fuel that
`dropLeading_spec` proves sufficient. -/
def dropLeading (heights : List Nat) (maxH : Nat) : Nat → Nat → Nat → Nat × Nat
  | 0, first, hfo => (first, hfo)
  | fuel + 1, first, hfo =>
    if hfo > maxH then dropLeading heights maxH fuel (first + 1) (hfo - heights.getD first 0)
    else (first, hfo)

/-- The `while index_to_display >= last_visible_index` forward expansion.
Fuelled; `get_items_bounds` passes `idx + 1`, which `fwdOuter_spec` proves
sufficient. -/
def fwdOuter (heights : List Nat) (maxH idx : Nat) :
    Nat → Nat → Nat → Nat → Nat × Nat × Nat
  | 0, first, last, hfo => (first, last, hfo)
  | fuel + 1, first, last, hfo =>
    if last ≤ idx then
      let hfo1 := hfo + heights.getD last 0
      let r := dropLeading heights maxH (last + 1) first hfo1
      fwdOuter heights maxH idx fuel r.1 (last + 1) r.2
    else (first, last, hfo)

/-- The inner `while height_from_offset > max_height` of the backward
expansion: shrink from the trailing end. Structural in `last`; the `last = 0`
stop corresponds to a state the invariants make unreachable. -/
def backInner (heights : List Nat) (maxH : Nat) : Nat → Nat → Nat × Nat
  | 0, hfo => (0, hfo)
  | last + 1, hfo =>
    if hfo > maxH then backInner heights maxH last (hfo - heights.getD last 0)
    else (last + 1, hfo)

/-- The `while index_to_display < first_visible_index` backward expansion;
structural in `first`, which decreases by one per iteration. -/
def backOuter (heights : List Nat) (maxH idx : Nat) :
    Nat → Nat → Nat → Nat × Nat × Nat
  | 0, last, hfo => (0, last, hfo)
  | first + 1, last, hfo =>
    if idx < first + 1 then
      let hfo1 := hfo + heights.getD first 0
      let r := backInner heights maxH last hfo1
      backOuter heights maxH idx first r.1 r.2
    else (first + 1, last, hfo)

/-- `Tree::get_items_bounds(&self, selected, offset, max_height)`. -/
def get_items_bounds (t : Tree) (selected : Option TreeIndex)
    (offset max_height : Nat) : Nat × Nat :=
  let heights := heightsOf t.children
  let offset := min offset (lenDescList t.children - 1)
  let fit := countFit max_height (heights.drop offset) 0
  let first_visible := offset
  let last_visible := offset + fit.1
  let height_from_offset := fit.2
  let index_to_display :=
    (apply_scroll_padding_to_selected_index t selected max_height
      first_visible last_visible).getD offset
  let r1 := fwdOuter heights max_height index_to_display (index_to_display + 1)
    first_visible last_visible height_from_offset
  let r2 := backOuter heights max_height index_to_display r1.1 r1.2.1 r1.2.2
  (r2.1, r2.2.1)

-- MARK: basic facts about the traversal machinery

theorem stackSize_append (a b : List (TreeIndex × TreeItem)) :
    stackSize (a ++ b) = stackSize a + stackSize b := by
  induction a with
  | nil => simp [stackSize]
  | cons x xs ih =>
    cases x with
    | mk ix t =>
      show t.size + stackSize (xs ++ b) = t.size + stackSize xs + stackSize b
      rw [ih]
      omega

theorem stackSize_pushChildren (ix : TreeIndex) (k : Nat) (cs : List TreeItem) :
    stackSize (pushChildren ix k cs) = sizeList cs := by
  induction cs generalizing k with
  | nil => rfl
  | cons c cs ih =>
    show c.size + stackSize (pushChildren ix (k + 1) cs) = c.size + sizeList cs
    rw [ih]

theorem stackSize_initStack (k : Nat) (cs : List TreeItem) :
    stackSize (initStack k cs) = sizeList cs := by
  induction cs generalizing k with
  | nil => rfl
  | cons c cs ih =>
    show c.size + stackSize (initStack (k + 1) cs) = c.size + sizeList cs
    rw [ih]

/-- Any fuel at least `stackSize s` produces the full run: the iterator's
step count is exactly `stackSize s`. -/
theorem runIterF_congr : ∀ (fuel : Nat) (s : List (TreeIndex × TreeItem)),
    stackSize s ≤ fuel → runIterF fuel s = runIter s := by
  intro fuel
  induction fuel with
  | zero =>
    intro s hs
    cases s with
    | nil => rfl
    | cons x rest =>
      cases x with
      | mk ix t =>
        have := t.size_pos
        have h0 : stackSize ((ix, t) :: rest) = t.size + stackSize rest := rfl
        omega
  | succ fuel ih =>
    intro s hs
    cases s with
    | nil => rfl
    | cons x rest =>
      cases x with
      | mk ix t =>
        have hsz : stackSize ((ix, t) :: rest) = t.size + stackSize rest := rfl
        have hinner : stackSize (pushChildren ix 0 t.children ++ rest) =
            sizeList t.children + stackSize rest := by
          rw [stackSize_append, stackSize_pushChildren]
        have htsz : t.size = 1 + sizeList t.children := by
          cases t with
          | mk h cs => rfl
        have hm : stackSize ((ix, t) :: rest) =
            stackSize (pushChildren ix 0 t.children ++ rest) + 1 := by
          omega
        calc runIterF (fuel + 1) ((ix, t) :: rest)
            = (ix, t) :: runIterF fuel (pushChildren ix 0 t.children ++ rest) := rfl
          _ = (ix, t) :: runIter (pushChildren ix 0 t.children ++ rest) := by
              rw [ih _ (by omega)]
          _ = runIterF (stackSize (pushChildren ix 0 t.children ++ rest) + 1)
              ((ix, t) :: rest) := rfl
          _ = runIterF (stackSize ((ix, t) :: rest)) ((ix, t) :: rest) := by rw [hm]
          _ = runIter ((ix, t) :: rest) := rfl

theorem runIter_nil : runIter [] = [] := rfl

theorem runIter_cons (ix : TreeIndex) (t : TreeItem) (rest : List (TreeIndex × TreeItem)) :
    runIter ((ix, t) :: rest) =
      (ix, t) :: runIter (pushChildren ix 0 t.children ++ rest) := by
  show runIterF (stackSize ((ix, t) :: rest)) ((ix, t) :: rest) = _
  have hsz : stackSize ((ix, t) :: rest) = t.size + stackSize rest := rfl
  have htsz : t.size = 1 + sizeList t.children := by
    cases t with
    | mk h cs => rfl
  have h1 : stackSize ((ix, t) :: rest) = (sizeList t.children + stackSize rest) + 1 := by
    omega
  rw [h1]
  show (ix, t) :: runIterF (sizeList t.children + stackSize rest)
      (pushChildren ix 0 t.children ++ rest) = _
  rw [runIterF_congr _ _ (by rw [stackSize_append, stackSize_pushChildren])]

theorem runIter_append (a b : List (TreeIndex × TreeItem)) :
    runIter (a ++ b) = runIter a ++ runIter b := by
  have main : ∀ (n : Nat) (a b : List (TreeIndex × TreeItem)), stackSize a ≤ n →
      runIter (a ++ b) = runIter a ++ runIter b := by
    intro n
    induction n with
    | zero =>
      intro a b ha
      cases a with
      | nil => simp [runIter_nil]
      | cons x rest =>
        cases x with
        | mk ix t =>
          have := t.size_pos
          have : stackSize ((ix, t) :: rest) = t.size + stackSize rest := rfl
          omega
    | succ n ih =>
      intro a b ha
      cases a with
      | nil => simp [runIter_nil]
      | cons x rest =>
        cases x with
        | mk ix t =>
          have htsz : t.size = 1 + sizeList t.children := by
            cases t with
            | mk h cs => rfl
          have hsz : stackSize ((ix, t) :: rest) = t.size + stackSize rest := rfl
          rw [List.cons_append, runIter_cons, runIter_cons, ← List.append_assoc,
            ih _ _ (by rw [stackSize_append, stackSize_pushChildren]; omega)]
          simp
  exact main (stackSize a) a b le_rfl

theorem runIter_length (s : List (TreeIndex × TreeItem)) :
    (runIter s).length = stackSize s := by
  have main : ∀ (n : Nat) (s : List (TreeIndex × TreeItem)), stackSize s ≤ n →
      (runIter s).length = stackSize s := by
    intro n
    induction n with
    | zero =>
      intro s hs
      cases s with
      | nil => rfl
      | cons x rest =>
        cases x with
        | mk ix t =>
          have := t.size_pos
          have : stackSize ((ix, t) :: rest) = t.size + stackSize rest := rfl
          omega
    | succ n ih =>
      intro s hs
      cases s with
      | nil => rfl
      | cons x rest =>
        cases x with
        | mk ix t =>
          have htsz : t.size = 1 + sizeList t.children := by
            cases t with
            | mk h cs => rfl
          have hsz : stackSize ((ix, t) :: rest) = t.size + stackSize rest := rfl
          rw [runIter_cons]
          show (runIter (pushChildren ix 0 t.children ++ rest)).length + 1 = _
          rw [ih _ (by rw [stackSize_append, stackSize_pushChildren]; omega),
            stackSize_append, stackSize_pushChildren]
          omega
  exact main (stackSize s) s le_rfl

theorem stackSizeP_append (a b : List TreeItem) :
    stackSizeP (a ++ b) = stackSizeP a + stackSizeP b := by
  induction a with
  | nil => simp [stackSizeP]
  | cons t xs ih =>
    show t.size + stackSizeP (xs ++ b) = t.size + stackSizeP xs + stackSizeP b
    rw [ih]
    omega

theorem runPlainF_congr : ∀ (fuel : Nat) (s : List TreeItem),
    stackSizeP s ≤ fuel → runPlainF fuel s = runPlain s := by
  intro fuel
  induction fuel with
  | zero =>
    intro s hs
    cases s with
    | nil => rfl
    | cons t rest =>
      have := t.size_pos
      have h0 : stackSizeP (t :: rest) = t.size + stackSizeP rest := rfl
      omega
  | succ fuel ih =>
    intro s hs
    cases s with
    | nil => rfl
    | cons t rest =>
      have hsz : stackSizeP (t :: rest) = t.size + stackSizeP rest := rfl
      have htsz : t.size = 1 + sizeList t.children := by
        cases t with
        | mk h cs => rfl
      have hinner : stackSizeP (t.children ++ rest) = sizeList t.children + stackSizeP rest := by
        rw [stackSizeP_append]
        have : stackSizeP t.children = sizeList t.children := by
          induction t.children with
          | nil => rfl
          | cons c cs ihc =>
            show c.size + stackSizeP cs = c.size + sizeList cs
            rw [ihc]
        rw [this]
      have hm : stackSizeP (t :: rest) = stackSizeP (t.children ++ rest) + 1 := by omega
      calc runPlainF (fuel + 1) (t :: rest)
          = t :: runPlainF fuel (t.children ++ rest) := rfl
        _ = t :: runPlain (t.children ++ rest) := by rw [ih _ (by omega)]
        _ = runPlainF (stackSizeP (t.children ++ rest) + 1) (t :: rest) := rfl
        _ = runPlainF (stackSizeP (t :: rest)) (t :: rest) := by rw [hm]
        _ = runPlain (t :: rest) := rfl

theorem runPlain_cons (t : TreeItem) (rest : List TreeItem) :
    runPlain (t :: rest) = t :: runPlain (t.children ++ rest) := by
  have hsz : stackSizeP (t :: rest) = t.size + stackSizeP rest := rfl
  have htsz : t.size = 1 + sizeList t.children := by
    cases t with
    | mk h cs => rfl
  have hP : stackSizeP t.children = sizeList t.children := by
    induction t.children with
    | nil => rfl
    | cons c cs ihc =>
      show c.size + stackSizeP cs = c.size + sizeList cs
      rw [ihc]
  have hm : stackSizeP (t :: rest) = stackSizeP (t.children ++ rest) + 1 := by
    rw [stackSizeP_append]
    omega
  show runPlainF (stackSizeP (t :: rest)) (t :: rest) = _
  rw [hm]
  show t :: runPlainF (stackSizeP (t.children ++ rest)) (t.children ++ rest) = _
  rfl

/-- The indexed iterator yields the same nodes as the plain one. -/
theorem runIter_map_snd (s : List (TreeIndex × TreeItem)) :
    (runIter s).map Prod.snd = runPlain (s.map Prod.snd) := by
  have main : ∀ (n : Nat) (s : List (TreeIndex × TreeItem)), stackSize s ≤ n →
      (runIter s).map Prod.snd = runPlain (s.map Prod.snd) := by
    intro n
    induction n with
    | zero =>
      intro s hs
      cases s with
      | nil => rfl
      | cons x rest =>
        cases x with
        | mk ix t =>
          have := t.size_pos
          have h0 : stackSize ((ix, t) :: rest) = t.size + stackSize rest := rfl
          omega
    | succ n ih =>
      intro s hs
      cases s with
      | nil => rfl
      | cons x rest =>
        cases x with
        | mk ix t =>
          have hsz : stackSize ((ix, t) :: rest) = t.size + stackSize rest := rfl
          have htsz : t.size = 1 + sizeList t.children := by
            cases t with
            | mk h cs => rfl
          have hpc : ∀ (k : Nat) (cs : List TreeItem),
              (pushChildren ix k cs).map Prod.snd = cs := by
            intro k cs
            induction cs generalizing k with
            | nil => rfl
            | cons c cs ihc =>
              show c :: (pushChildren ix (k + 1) cs).map Prod.snd = c :: cs
              rw [ihc]
          rw [runIter_cons, List.map_cons]
          simp only [List.map_cons]
          rw [runPlain_cons,
            ih _ (by rw [stackSize_append, stackSize_pushChildren]; omega),
            List.map_append, hpc]
  exact main (stackSize s) s le_rfl

theorem initStack_map_snd (k : Nat) (cs : List TreeItem) :
    (initStack k cs).map Prod.snd = cs := by
  induction cs generalizing k with
  | nil => rfl
  | cons c cs ih =>
    show c :: (initStack (k + 1) cs).map Prod.snd = c :: cs
    rw [ih]

theorem iter_descendants_eq_map_snd (cs : List TreeItem) :
    iter_descendants cs = (iter_descendants_with_index cs).map Prod.snd := by
  show runPlain cs = (runIter (initStack 0 cs)).map Prod.snd
  rw [runIter_map_snd, initStack_map_snd]

/-- `len_descendants` agrees with the node-count measure. -/
theorem lenDescList_eq_sizeList (cs : List TreeItem) : lenDescList cs = sizeList cs := by
  have main : ∀ t : TreeItem, t.len_descendants = sizeList t.children - 1 + 0 ∨ True := by
    intro t
    right
    trivial
  have key : ∀ t : TreeItem, 1 + t.len_descendants = t.size := by
    intro t
    induction t using TreeItem.inductOn with
    | step h cs ihs =>
      show 1 + lenDescList cs = 1 + sizeList cs
      congr 1
      induction cs with
      | nil => rfl
      | cons c ds ihd =>
        show (1 + c.len_descendants) + lenDescList ds = c.size + sizeList ds
        rw [ihs c (by simp), ihd (fun d hd => ihs d (by simp [hd]))]
  induction cs with
  | nil => rfl
  | cons c ds ih =>
    show (1 + c.len_descendants) + lenDescList ds = c.size + sizeList ds
    rw [key c, ih]

theorem length_iter_descendants_with_index (cs : List TreeItem) :
    (iter_descendants_with_index cs).length = lenDescList cs := by
  show (runIter (initStack 0 cs)).length = _
  rw [runIter_length, stackSize_initStack, lenDescList_eq_sizeList]

-- MARK: membership and order of the address-annotated traversal

theorem mem_runIter_pushChildren {p : TreeIndex} {u : TreeItem} (ix : TreeIndex)
    (k : Nat) (cs : List TreeItem) :
    (p, u) ∈ runIter (pushChildren ix k cs) ↔
      ∃ j c, cs[j]? = some c ∧ (p, u) ∈ runIter [(ix.pushed (k + j), c)] := by
  induction cs generalizing k with
  | nil =>
    show (p, u) ∈ runIter [] ↔ _
    simp [runIter_nil]
  | cons c cs ih =>
    have hsplit : pushChildren ix k (c :: cs) =
        [(ix.pushed k, c)] ++ pushChildren ix (k + 1) cs := rfl
    rw [hsplit, runIter_append, List.mem_append, ih]
    constructor
    · rintro (hm | ⟨j, d, hj, hmem⟩)
      · exact ⟨0, c, by simp, by simpa using hm⟩
      · refine ⟨j + 1, d, by simpa using hj, ?_⟩
        have : k + 1 + j = k + (j + 1) := by omega
        rwa [this] at hmem
    · rintro ⟨j, d, hj, hmem⟩
      cases j with
      | zero =>
        left
        simp only [List.getElem?_cons_zero, Option.some.injEq] at hj
        subst hj
        simpa using hmem
      | succ j =>
        right
        refine ⟨j, d, by simpa using hj, ?_⟩
        have : k + (j + 1) = k + 1 + j := by omega
        rwa [this] at hmem

theorem mem_runIter_single : ∀ (t : TreeItem) (ix p : TreeIndex) (u : TreeItem),
    ((p, u) ∈ runIter [(ix, t)] ↔
      ∃ rest, p.indices = ix.indices ++ rest ∧ descend t rest = some u) := by
  have main : ∀ (n : Nat) (t : TreeItem), t.size ≤ n → ∀ (ix p : TreeIndex) (u : TreeItem),
      ((p, u) ∈ runIter [(ix, t)] ↔
        ∃ rest, p.indices = ix.indices ++ rest ∧ descend t rest = some u) := by
    intro n
    induction n with
    | zero =>
      intro t ht
      have := t.size_pos
      omega
    | succ n ih =>
      intro t ht ix p u
      have hcons : runIter [(ix, t)] = (ix, t) :: runIter (pushChildren ix 0 t.children) := by
        rw [runIter_cons]
        simp
      rw [hcons, List.mem_cons, mem_runIter_pushChildren]
      constructor
      · rintro (heq | ⟨j, c, hj, hmem⟩)
        · refine ⟨[], by simpa using congrArg (fun q => q.1.indices) heq, ?_⟩
          have : u = t := congrArg Prod.snd heq
          simp [descend, this]
        · have hc : c ∈ t.children := by
            exact List.getElem?_mem hj
          have hcsize : c.size ≤ n := by
            have h1 := size_le_sizeList hc
            have h2 : t.size = 1 + sizeList t.children := by
              cases t with
              | mk hh cc => rfl
            omega
          rw [ih c hcsize] at hmem
          obtain ⟨rest, hpi, hdesc⟩ := hmem
          refine ⟨j :: rest, ?_, ?_⟩
          · simpa [TreeIndex.pushed, TreeIndex.push] using hpi
          · show descend t (j :: rest) = some u
            simp only [descend, get_child, hj]
            exact hdesc
      · rintro ⟨rest, hpi, hdesc⟩
        cases rest with
        | nil =>
          left
          simp only [descend, Option.some.injEq] at hdesc
          subst hdesc
          have : p = ix := by
            cases p
            cases ix
            simpa using hpi
          rw [this]
        | cons j rest =>
          right
          simp only [descend] at hdesc
          cases hj : get_child t.children j with
          | none => rw [hj] at hdesc; exact absurd hdesc (by simp)
          | some c =>
            rw [hj] at hdesc
            have hc : c ∈ t.children := List.getElem?_mem hj
            have hcsize : c.size ≤ n := by
              have h1 := size_le_sizeList hc
              have h2 : t.size = 1 + sizeList t.children := by
                cases t with
                | mk hh cc => rfl
              omega
            refine ⟨j, c, hj, ?_⟩
            rw [ih c hcsize]
            refine ⟨rest, ?_, hdesc⟩
            simpa [TreeIndex.pushed, TreeIndex.push] using hpi
  exact fun t => main t.size t le_rfl

theorem mem_runIter_initStack {p : TreeIndex} {u : TreeItem} (k : Nat) (cs : List TreeItem) :
    (p, u) ∈ runIter (initStack k cs) ↔
      ∃ j c, cs[j]? = some c ∧ (p, u) ∈ runIter [(TreeIndex.new_at (k + j), c)] := by
  induction cs generalizing k with
  | nil =>
    show (p, u) ∈ runIter [] ↔ _
    simp [runIter_nil]
  | cons c cs ih =>
    have hsplit : initStack k (c :: cs) =
        [(TreeIndex.new_at k, c)] ++ initStack (k + 1) cs := rfl
    rw [hsplit, runIter_append, List.mem_append, ih]
    constructor
    · rintro (hm | ⟨j, d, hj, hmem⟩)
      · exact ⟨0, c, by simp, by simpa using hm⟩
      · refine ⟨j + 1, d, by simpa using hj, ?_⟩
        have : k + 1 + j = k + (j + 1) := by omega
        rwa [this] at hmem
    · rintro ⟨j, d, hj, hmem⟩
      cases j with
      | zero =>
        left
        simp only [List.getElem?_cons_zero, Option.some.injEq] at hj
        subst hj
        simpa using hmem
      | succ j =>
        right
        refine ⟨j, d, by simpa using hj, ?_⟩
        have : k + (j + 1) = k + 1 + j := by omega
        rwa [this] at hmem

/-- A pair is yielded by the address-annotated traversal exactly when its
address is a non-empty address resolving to its node. -/
theorem mem_iter_descendants_with_index (cs : List TreeItem) (p : TreeIndex) (u : TreeItem) :
    (p, u) ∈ iter_descendants_with_index cs ↔
      (p.indices ≠ [] ∧ get_descendant cs p = some u) := by
  show (p, u) ∈ runIter (initStack 0 cs) ↔ _
  rw [mem_runIter_initStack]
  constructor
  · rintro ⟨j, c, hj, hmem⟩
    rw [mem_runIter_single] at hmem
    obtain ⟨rest, hpi, hdesc⟩ := hmem
    have hji : (TreeIndex.new_at (0 + j)).indices = [j] := by
      simp [TreeIndex.new_at]
    rw [hji] at hpi
    constructor
    · rw [hpi]; simp
    · show get_descendant cs p = some u
      unfold get_descendant
      have hfirst : p.first = j := by
        rw [TreeIndex.first, hpi]; rfl
      have hrest : p.iter_rest = rest := by
        rw [TreeIndex.iter_rest, hpi]; rfl
      rw [hfirst, hrest]
      show (match get_child cs j with
        | some c => descend c rest
        | none => none) = some u
      simp only [get_child, hj]
      exact hdesc
  · rintro ⟨hne, hdesc⟩
    unfold get_descendant at hdesc
    cases hpi : p.indices with
    | nil => exact absurd hpi hne
    | cons j rest =>
      have hfirst : p.first = j := by
        rw [TreeIndex.first, hpi]; rfl
      have hrest : p.iter_rest = rest := by
        rw [TreeIndex.iter_rest, hpi]; rfl
      rw [hfirst, hrest] at hdesc
      cases hj : get_child cs j with
      | none => rw [hj] at hdesc; exact absurd hdesc (by simp)
      | some c =>
        rw [hj] at hdesc
        refine ⟨j, c, hj, ?_⟩
        rw [mem_runIter_single]
        exact ⟨rest, by simp [hpi, TreeIndex.new_at], hdesc⟩

/-- Addresses yielded from a single-seed run extend the seed address. -/
theorem indices_of_mem_runIter_single {t : TreeItem} {ix p : TreeIndex} {u : TreeItem}
    (h : (p, u) ∈ runIter [(ix, t)]) :
    ∃ rest, p.indices = ix.indices ++ rest := by
  rw [mem_runIter_single] at h
  obtain ⟨rest, hpi, _⟩ := h
  exact ⟨rest, hpi⟩

/-- The order relation the traversal is sorted by. -/
def addrLt (a b : TreeIndex × TreeItem) : Prop := lexLt a.1.indices b.1.indices

theorem pairwise_runIter_single :
    ∀ (t : TreeItem) (ix : TreeIndex), List.Pairwise addrLt (runIter [(ix, t)]) := by
  have block : ∀ (cs : List TreeItem) (ix : TreeIndex) (k : Nat),
      (∀ c ∈ cs, ∀ ix' : TreeIndex, List.Pairwise addrLt (runIter [(ix', c)])) →
      List.Pairwise addrLt (runIter (pushChildren ix k cs)) ∧
      (∀ q ∈ runIter (pushChildren ix k cs),
        ∃ j rest, k ≤ j ∧ q.1.indices = ix.indices ++ j :: rest) := by
    intro cs
    induction cs with
    | nil =>
      intro ix k hyp
      constructor
      · show List.Pairwise addrLt (runIter [])
        rw [runIter_nil]
        exact List.Pairwise.nil
      · intro q hq
        rw [show runIter (pushChildren ix k ([] : List TreeItem)) = [] from rfl] at hq
        cases hq
    | cons c cs ih =>
      intro ix k hyp
      have hsplit : pushChildren ix k (c :: cs) =
          [(ix.pushed k, c)] ++ pushChildren ix (k + 1) cs := rfl
      have hmem1 : ∀ q ∈ runIter [(ix.pushed k, c)],
          ∃ rest, q.1.indices = ix.indices ++ k :: rest := by
        rintro ⟨qi, qu⟩ hq
        obtain ⟨rest, hrest⟩ := indices_of_mem_runIter_single hq
        refine ⟨rest, ?_⟩
        show qi.indices = _
        rw [hrest]
        show (ix.indices ++ [k]) ++ rest = _
        simp
      obtain ⟨ihp, ihmem⟩ := ih ix (k + 1) (fun c hc => hyp c (by simp [hc]))
      rw [hsplit, runIter_append]
      constructor
      · rw [List.pairwise_append]
        refine ⟨hyp c (by simp) (ix.pushed k), ihp, ?_⟩
        rintro a ha b hb
        obtain ⟨r1, hr1⟩ := hmem1 a ha
        obtain ⟨j, r2, hj, hr2⟩ := ihmem b hb
        show lexLt a.1.indices b.1.indices
        rw [hr1, hr2]
        exact lexLt_extend (by omega)
      · intro q hq
        rcases List.mem_append.mp hq with hq | hq
        · obtain ⟨rest, hrest⟩ := hmem1 q hq
          exact ⟨k, rest, le_rfl, hrest⟩
        · obtain ⟨j, rest, hj, hrest⟩ := ihmem q hq
          exact ⟨j, rest, by omega, hrest⟩
  have main : ∀ (n : Nat) (t : TreeItem), t.size ≤ n → ∀ ix : TreeIndex,
      List.Pairwise addrLt (runIter [(ix, t)]) := by
    intro n
    induction n with
    | zero =>
      intro t ht
      have := t.size_pos
      omega
    | succ n ih =>
      intro t ht ix
      have hcons : runIter [(ix, t)] = (ix, t) :: runIter (pushChildren ix 0 t.children) := by
        rw [runIter_cons]
        simp
      have hchild : ∀ c ∈ t.children, ∀ ix' : TreeIndex,
          List.Pairwise addrLt (runIter [(ix', c)]) := by
        intro c hc ix'
        have h1 := size_le_sizeList hc
        have h2 : t.size = 1 + sizeList t.children := by
          cases t with
          | mk hh cc => rfl
        exact ih c (by omega) ix'
      obtain ⟨hp, hmem⟩ := block t.children ix 0 hchild
      rw [hcons]
      refine List.Pairwise.cons ?_ hp
      intro q hq
      obtain ⟨j, rest, _, hrest⟩ := hmem q hq
      show lexLt ix.indices q.1.indices
      rw [hrest]
      exact lexLt_append _ (by simp)
  exact fun t => main t.size t le_rfl

/-- The address-annotated traversal is strictly increasing in the
lexicographic address order. -/
theorem pairwise_iter_descendants_with_index (cs : List TreeItem) :
    List.Pairwise addrLt (iter_descendants_with_index cs) := by
  have block : ∀ (cs : List TreeItem) (k : Nat),
      List.Pairwise addrLt (runIter (initStack k cs)) ∧
      (∀ q ∈ runIter (initStack k cs),
        ∃ j rest, k ≤ j ∧ q.1.indices = j :: rest) := by
    intro cs
    induction cs with
    | nil =>
      intro k
      constructor
      · rw [show runIter (initStack k ([] : List TreeItem)) = [] from rfl]
        exact List.Pairwise.nil
      · intro q hq
        rw [show runIter (initStack k ([] : List TreeItem)) = [] from rfl] at hq
        cases hq
    | cons c cs ih =>
      intro k
      have hsplit : initStack k (c :: cs) =
          [(TreeIndex.new_at k, c)] ++ initStack (k + 1) cs := rfl
      have hmem1 : ∀ q ∈ runIter [(TreeIndex.new_at k, c)],
          ∃ rest, q.1.indices = k :: rest := by
        rintro ⟨qi, qu⟩ hq
        obtain ⟨rest, hrest⟩ := indices_of_mem_runIter_single hq
        exact ⟨rest, by simpa [TreeIndex.new_at] using hrest⟩
      obtain ⟨ihp, ihmem⟩ := ih (k + 1)
      rw [hsplit, runIter_append]
      constructor
      · rw [List.pairwise_append]
        refine ⟨pairwise_runIter_single c _, ihp, ?_⟩
        rintro a ha b hb
        obtain ⟨r1, hr1⟩ := hmem1 a ha
        obtain ⟨j, r2, hj, hr2⟩ := ihmem b hb
        show lexLt a.1.indices b.1.indices
        rw [hr1, hr2]
        exact lexLt_extend (a := []) (by omega)
      · intro q hq
        rcases List.mem_append.mp hq with hq | hq
        · obtain ⟨rest, hrest⟩ := hmem1 q hq
          exact ⟨k, rest, le_rfl, hrest⟩
        · obtain ⟨j, rest, hj, hrest⟩ := ihmem q hq
          exact ⟨j, rest, by omega, hrest⟩
  exact (block cs 0).1

-- MARK: the find_offset_of_index scan

/-- On a strictly sorted list, the scan finds exactly the position of the
target address. -/
theorem findOffsetScan_of_getElem (target : TreeIndex) (u : TreeItem) :
    ∀ (l : List (TreeIndex × TreeItem)) (base k : Nat),
    List.Pairwise addrLt l → l[k]? = some (target, u) →
    findOffsetScan target base l = some (base + k, u) := by
  intro l
  induction l with
  | nil =>
    intro base k _ hk
    simp at hk
  | cons x rest ih =>
    intro base k hp hk
    cases x with
    | mk i item =>
      cases k with
      | zero =>
        simp only [List.getElem?_cons_zero, Option.some.injEq] at hk
        have h1 : i = target := congrArg Prod.fst hk
        have h2 : item = u := congrArg Prod.snd hk
        subst h1
        subst h2
        show findOffsetScan i base ((i, item) :: rest) = some (base + 0, item)
        simp [findOffsetScan, lexCompare_refl]
      | succ k =>
        have hkr : rest[k]? = some (target, u) := by simpa using hk
        have hmemr : (target, u) ∈ rest := List.getElem?_mem hkr
        have hlt : lexLt i.indices target.indices :=
          (List.pairwise_cons.mp hp).1 (target, u) hmemr
        have hpr : List.Pairwise addrLt rest := (List.pairwise_cons.mp hp).2
        have hrec := ih (base + 1) k hpr hkr
        have hlt' : lexCompare i.indices target.indices = Ordering.lt := hlt
        have hcalc : base + 1 + k = base + (k + 1) := by omega
        simp only [findOffsetScan, hlt', hrec, hcalc]

/-- Whatever the scan returns is at the reported position of the list, with
the target as its address. -/
theorem getElem_of_findOffsetScan (target : TreeIndex) (u : TreeItem) :
    ∀ (l : List (TreeIndex × TreeItem)) (base j : Nat),
    findOffsetScan target base l = some (j, u) →
    ∃ k, j = base + k ∧ l[k]? = some (target, u) := by
  intro l
  induction l with
  | nil =>
    intro base j h
    simp [findOffsetScan] at h
  | cons x rest ih =>
    intro base j h
    cases x with
    | mk i item =>
      simp only [findOffsetScan] at h
      cases hcmp : lexCompare i.indices target.indices with
      | lt =>
        rw [hcmp] at h
        obtain ⟨k, hk1, hk2⟩ := ih (base + 1) j h
        exact ⟨k + 1, by omega, by simpa using hk2⟩
      | eq =>
        rw [hcmp] at h
        have heq : i = target := by
          cases i
          cases target
          simpa using (lexCompare_eq_iff _ _).mp hcmp
        simp only [Option.some.injEq, Prod.mk.injEq] at h
        obtain ⟨h1, h2⟩ := h
        subst heq
        subst h2
        exact ⟨0, by omega, by simp⟩
      | gt => rw [hcmp] at h; cases h

-- MARK: claims C8, C4, C2, C7

/-- C8: every mutating `TreeIndex` operation (`push`, `pop`, `splice`, `floor`)
applied to a non-empty index leaves it non-empty, and `pop` on a
single-element index returns `none` and leaves the index unchanged. -/
theorem C8_index_mutators_preserve_nonempty (x : TreeIndex) (i place v : Nat)
    (h : x.indices ≠ []) :
    (x.push i).indices ≠ [] ∧ x.pop.2.indices ≠ [] ∧
    (x.splice place i).indices ≠ [] ∧ (x.floor place).indices ≠ [] ∧
    (x.indices = [v] → x.pop = (none, x)) := by
  refine ⟨by simp [TreeIndex.push], ?_, by simp [TreeIndex.splice], ?_, ?_⟩
  · unfold TreeIndex.pop
    by_cases hl : x.indices.length > 1
    · simp only [hl, if_true]
      have : x.indices.dropLast.length = x.indices.length - 1 := x.indices.length_dropLast
      intro hcon
      have : x.indices.dropLast.length = 0 := by rw [hcon]; rfl
      omega
    · simp only [hl, if_false]
      exact h
  · unfold TreeIndex.floor resizeZero
    by_cases hp : place + 1 ≤ x.indices.length
    · simp only [hp, if_true]
      intro hcon
      have h1 : (x.indices.take (place + 1)).length = 0 := by rw [hcon]; rfl
      have h2 : (x.indices.take (place + 1)).length = min (place + 1) x.indices.length :=
        List.length_take (place + 1) x.indices
      have h3 : x.indices.length ≠ 0 := fun hz => h (List.eq_nil_of_length_eq_zero hz)
      omega
    · simp only [hp, if_false]
      intro hcon
      exact h (List.append_eq_nil.mp hcon).1
  · intro hv
    unfold TreeIndex.pop
    have : ¬ x.indices.length > 1 := by rw [hv]; simp
    simp [this]

theorem C8_index_mutators_preserve_nonempty_witness :
    ((⟨[3]⟩ : TreeIndex).push 1).indices ≠ [] ∧ (⟨[3]⟩ : TreeIndex).pop.2.indices ≠ [] ∧
    ((⟨[3]⟩ : TreeIndex).splice 0 1).indices ≠ [] ∧
    ((⟨[3]⟩ : TreeIndex).floor 0).indices ≠ [] ∧
    ((⟨[3]⟩ : TreeIndex).indices = [3] → (⟨[3]⟩ : TreeIndex).pop = (none, ⟨[3]⟩)) :=
  C8_index_mutators_preserve_nonempty ⟨[3]⟩ 1 0 3 (by decide)

/-- C4: the claim states `find_last_child` on a node with `n ≥ 1` children
returns the child at offset `n - 1`; the code pairs offset `n - 1` with the
child at offset `0`. On the two-child node below it returns the FIRST child
(height 1) with offset 1, not the second child (height 2). -/
theorem C4_find_last_child_returns_first_child :
    find_last_child [TreeItem.mk 1 [], TreeItem.mk 2 []] = some (1, TreeItem.mk 1 []) ∧
    TreeItem.mk 1 [] ≠ TreeItem.mk 2 [] := by
  refine ⟨rfl, ?_⟩
  intro hcon
  have : (TreeItem.mk 1 []).height = (TreeItem.mk 2 []).height := by rw [hcon]
  simp [TreeItem.height] at this

/-- C2: for a valid non-empty address `a`, computing its linear offset and
looking the offset back up returns `a` (with the same node). -/
theorem C2_offset_address_roundtrip (cs : List TreeItem) (a : TreeIndex) (ta : TreeItem)
    (hne : a.indices ≠ []) (hvalid : get_descendant cs a = some ta) :
    ∃ k, find_offset_of_index cs a = some (k, ta) ∧
      (find_index_of_offset cs k).map Prod.fst = some a := by
  have hmem : (a, ta) ∈ iter_descendants_with_index cs :=
    (mem_iter_descendants_with_index cs a ta).mpr ⟨hne, hvalid⟩
  obtain ⟨k, hk⟩ := List.getElem?_of_mem hmem
  have hp := pairwise_iter_descendants_with_index cs
  have hscan := findOffsetScan_of_getElem a ta _ 0 k hp hk
  refine ⟨k, ?_, ?_⟩
  · show findOffsetScan a 0 (iter_descendants_with_index cs) = some (k, ta)
    rw [hscan]
    simp
  · show ((iter_descendants_with_index cs)[k]?).map Prod.fst = some a
    rw [hk]
    rfl

theorem C2_offset_address_roundtrip_witness :
    ∃ k, find_offset_of_index
        [TreeItem.mk 1 [TreeItem.mk 2 [], TreeItem.mk 3 []],
         TreeItem.mk 4 [TreeItem.mk 5 [], TreeItem.mk 6 []]] ⟨[1, 0]⟩ =
        some (k, TreeItem.mk 5 []) ∧
      (find_index_of_offset
        [TreeItem.mk 1 [TreeItem.mk 2 [], TreeItem.mk 3 []],
         TreeItem.mk 4 [TreeItem.mk 5 [], TreeItem.mk 6 []]] k).map Prod.fst =
        some ⟨[1, 0]⟩ :=
  C2_offset_address_roundtrip _ _ _ (by decide) (by rfl)

/-- C7: the linear offset is strictly monotone in the lexicographic address
order: whenever both lookups succeed and `a < b`, `offsetOf a < offsetOf b`
(equivalently, the address-annotated traversal is strictly increasing, which
is `pairwise_iter_descendants_with_index`). -/
theorem C7_offset_strictly_monotone (cs : List TreeItem) (a b : TreeIndex)
    (ka kb : Nat) (ta tb : TreeItem)
    (ha : find_offset_of_index cs a = some (ka, ta))
    (hb : find_offset_of_index cs b = some (kb, tb))
    (hab : lexLt a.indices b.indices) : ka < kb := by
  obtain ⟨k1, hk1e, hk1⟩ := getElem_of_findOffsetScan a ta _ 0 ka ha
  obtain ⟨k2, hk2e, hk2⟩ := getElem_of_findOffsetScan b tb _ 0 kb hb
  rw [show k1 = ka from by omega] at hk1
  rw [show k2 = kb from by omega] at hk2
  have hp := pairwise_iter_descendants_with_index cs
  rw [List.pairwise_iff_getElem] at hp
  rcases lt_trichotomy ka kb with h | h | h
  · exact h
  · exfalso
    rw [h] at hk1
    have heq : (a, ta) = (b, tb) := Option.some.inj (hk1.symm.trans hk2)
    have hfst : a = b := congrArg Prod.fst heq
    rw [hfst] at hab
    exact lexLt_irrefl _ hab
  · exfalso
    obtain ⟨hlt1, hg1⟩ := List.getElem?_eq_some_iff.mp hk1
    obtain ⟨hlt2, hg2⟩ := List.getElem?_eq_some_iff.mp hk2
    have hcross := hp kb ka hlt2 hlt1 h
    rw [hg1, hg2] at hcross
    exact lexLt_irrefl _ (lexLt_trans hab hcross)

theorem C7_offset_strictly_monotone_witness : (2 : Nat) < 3 :=
  C7_offset_strictly_monotone
    [TreeItem.mk 1 [TreeItem.mk 2 [], TreeItem.mk 3 []],
     TreeItem.mk 4 [TreeItem.mk 5 [], TreeItem.mk 6 []]]
    ⟨[0, 1]⟩ ⟨[1]⟩ 2 3 (TreeItem.mk 3 []) (TreeItem.mk 4 [TreeItem.mk 5 [], TreeItem.mk 6 []])
    (by rfl) (by rfl) (by decide)

-- MARK: claim C3 (find_nearest_to)

theorem nearestLoop_cons (index : TreeIndex) (cursor : TreeItem) (i : Nat) (rest : List Nat) :
    nearestLoop index cursor (i :: rest) =
      if is_empty cursor.children then some (index, cursor)
      else
        match get_child cursor.children (min i (len_children cursor.children - 1)) with
        | some next => nearestLoop (index.pushed (min i (len_children cursor.children - 1)))
            next rest
        | none => none := rfl

theorem nearestLoop_total : ∀ (rest : List Nat) (index : TreeIndex) (cursor : TreeItem),
    ∃ r, nearestLoop index cursor rest = some r := by
  intro rest
  induction rest with
  | nil => exact fun index cursor => ⟨(index, cursor), rfl⟩
  | cons i rest ih =>
    intro index cursor
    by_cases hemp : is_empty cursor.children
    · exact ⟨(index, cursor), by rw [nearestLoop_cons, if_pos hemp]⟩
    · have hlen : 0 < cursor.children.length := by
        rcases hc : cursor.children with _ | _
        · rw [hc] at hemp
          exact absurd rfl hemp
        · simp
      have hclamp : min i (len_children cursor.children - 1) < cursor.children.length := by
        have : len_children cursor.children = cursor.children.length := rfl
        omega
      have hget : get_child cursor.children (min i (len_children cursor.children - 1)) =
          some (cursor.children[min i (len_children cursor.children - 1)]) := by
        exact List.getElem?_eq_getElem hclamp
      obtain ⟨r, hr⟩ := ih (index.pushed (min i (len_children cursor.children - 1)))
        (cursor.children[min i (len_children cursor.children - 1)])
      refine ⟨r, ?_⟩
      rw [nearestLoop_cons, if_neg hemp, hget]
      exact hr

theorem nearestLoop_of_descend : ∀ (rest : List Nat) (index : TreeIndex) (cursor t : TreeItem),
    descend cursor rest = some t →
    nearestLoop index cursor rest = some (⟨index.indices ++ rest⟩, t) := by
  intro rest
  induction rest with
  | nil =>
    intro index cursor t hd
    simp only [descend, Option.some.injEq] at hd
    subst hd
    show some (index, cursor) = some (⟨index.indices ++ []⟩, cursor)
    cases index
    simp
  | cons i rest ih =>
    intro index cursor t hd
    simp only [descend] at hd
    cases hg : get_child cursor.children i with
    | none => rw [hg] at hd; cases hd
    | some c =>
      rw [hg] at hd
      have hi : i < cursor.children.length := (List.getElem?_eq_some_iff.mp hg).1
      have hemp : ¬ is_empty cursor.children := by
        intro hcon
        unfold is_empty at hcon
        have : cursor.children.length = 0 := by
          simpa using hcon
        omega
      have hclamp : min i (len_children cursor.children - 1) = i := by
        have : len_children cursor.children = cursor.children.length := rfl
        omega
      rw [nearestLoop_cons, if_neg hemp, hclamp, hg]
      show nearestLoop (index.pushed i) c rest =
        some ((⟨index.indices ++ i :: rest⟩ : TreeIndex), t)
      rw [ih (index.pushed i) c t hd]
      show some ((⟨(index.pushed i).indices ++ rest⟩ : TreeIndex), t) =
        some ((⟨index.indices ++ i :: rest⟩ : TreeIndex), t)
      simp [TreeIndex.pushed, TreeIndex.push]

/-- C3: on a non-empty tree, `find_nearest_to` always succeeds for any
(non-empty, per the address invariant) origin address, however stale; and
when the origin already resolves to a node it is returned unchanged. -/
theorem C3_find_nearest_total_and_identity (cs : List TreeItem) (origin : TreeIndex)
    (hcs : cs ≠ []) (hne : origin.indices ≠ []) :
    (∃ r, find_nearest_to cs origin = some r) ∧
    (∀ t, get_descendant cs origin = some t →
      find_nearest_to cs origin = some (origin, t)) := by
  have hlen : 0 < cs.length := List.length_pos.mpr hcs
  have hempcs : ¬ is_empty cs := by
    intro hcon
    unfold is_empty at hcon
    have : cs.length = 0 := by simpa using hcon
    omega
  have hlc : len_children cs = cs.length := rfl
  constructor
  · have hclamp : min origin.first (len_children cs - 1) < cs.length := by
      omega
    have hget : get_child cs (min origin.first (len_children cs - 1)) =
        some (cs[min origin.first (len_children cs - 1)]) :=
      List.getElem?_eq_getElem hclamp
    obtain ⟨r, hr⟩ := nearestLoop_total origin.iter_rest
      (TreeIndex.new_at (min origin.first (len_children cs - 1)))
      (cs[min origin.first (len_children cs - 1)])
    refine ⟨r, ?_⟩
    unfold find_nearest_to
    rw [if_neg hempcs]
    show (match get_child cs (min origin.first (len_children cs - 1)) with
      | some cursor => nearestLoop (TreeIndex.new_at (min origin.first (len_children cs - 1)))
          cursor origin.iter_rest
      | none => none) = some r
    rw [hget]
    exact hr
  · intro t hd
    unfold get_descendant at hd
    cases hg : get_child cs origin.first with
    | none => rw [hg] at hd; cases hd
    | some c =>
      rw [hg] at hd
      have hi : origin.first < cs.length := (List.getElem?_eq_some_iff.mp hg).1
      have hclamp : min origin.first (len_children cs - 1) = origin.first := by
        omega
      unfold find_nearest_to
      rw [if_neg hempcs]
      show (match get_child cs (min origin.first (len_children cs - 1)) with
        | some cursor => nearestLoop (TreeIndex.new_at (min origin.first (len_children cs - 1)))
            cursor origin.iter_rest
        | none => none) = some (origin, t)
      rw [hclamp, hg]
      show nearestLoop (TreeIndex.new_at origin.first) c origin.iter_rest = some (origin, t)
      rw [nearestLoop_of_descend origin.iter_rest _ c t hd]
      have hsplit : (TreeIndex.new_at origin.first).indices ++ origin.iter_rest =
          origin.indices := by
        show origin.indices.headD 0 :: origin.indices.tail = origin.indices
        cases horig : origin.indices with
        | nil => exact absurd horig hne
        | cons j rest => simp
      rw [show (⟨(TreeIndex.new_at origin.first).indices ++ origin.iter_rest⟩ : TreeIndex)
          = origin from by rw [hsplit]]

theorem C3_find_nearest_witness :
    ((∃ r, find_nearest_to [TreeItem.mk 1 [TreeItem.mk 2 []]] ⟨[0, 0]⟩ = some r) ∧
      (∀ t, get_descendant [TreeItem.mk 1 [TreeItem.mk 2 []]] ⟨[0, 0]⟩ = some t →
        find_nearest_to [TreeItem.mk 1 [TreeItem.mk 2 []]] ⟨[0, 0]⟩ = some (⟨[0, 0]⟩, t))) :=
  C3_find_nearest_total_and_identity [TreeItem.mk 1 [TreeItem.mk 2 []]] ⟨[0, 0]⟩
    (by simp) (by decide)

-- MARK: claim C10 (selection from an empty selection)

theorem sizeList_pos {cs : List TreeItem} (h : cs ≠ []) : 0 < sizeList cs := by
  cases cs with
  | nil => exact absurd rfl h
  | cons c cs =>
    have := c.size_pos
    show 0 < c.size + sizeList cs
    omega

theorem runIter_ne_nil {ix : TreeIndex} {t : TreeItem}
    (s : List (TreeIndex × TreeItem)) : runIter ((ix, t) :: s) ≠ [] := by
  rw [runIter_cons]
  simp

/-- `lastDescLoop` (with sufficient fuel) computes the last element of the
single-seed traversal. -/
theorem lastDescLoop_getLast : ∀ (n : Nat) (cursor : TreeItem), cursor.size ≤ n →
    ∀ (index : TreeIndex) (fuel : Nat), cursor.size ≤ fuel →
    ∃ r, lastDescLoop fuel index cursor = some r ∧
      (runIter [(index, cursor)]).getLast? = some r := by
  have gl_push : ∀ (cs : List TreeItem) (c : TreeItem) (ix : TreeIndex) (k : Nat),
      (runIter (pushChildren ix k (cs ++ [c]))).getLast? =
        (runIter [(ix.pushed (k + cs.length), c)]).getLast? := by
    intro cs
    induction cs with
    | nil =>
      intro c ix k
      rfl
    | cons d ds ih =>
      intro c ix k
      have hsplit : pushChildren ix k ((d :: ds) ++ [c]) =
          [(ix.pushed k, d)] ++ pushChildren ix (k + 1) (ds ++ [c]) := rfl
      rw [hsplit, runIter_append, List.getLast?_append, ih c ix (k + 1)]
      have harith : k + 1 + ds.length = k + (d :: ds).length := by
        simp only [List.length_cons]
        omega
      rw [harith]
      obtain ⟨y, hy⟩ := Option.isSome_iff_exists.mp
        (List.getLast?_isSome.mpr
          (@runIter_ne_nil (ix.pushed (k + (d :: ds).length)) c []))
      rw [hy]
      rfl
  intro n
  induction n with
  | zero =>
    intro cursor hc
    have := cursor.size_pos
    omega
  | succ n ih =>
    intro cursor hc index fuel hf
    have hone : ∃ f, fuel = f + 1 := by
      have := cursor.size_pos
      exact ⟨fuel - 1, by omega⟩
    obtain ⟨f, rfl⟩ := hone
    by_cases hemp : is_empty cursor.children
    · refine ⟨(index, cursor), ?_, ?_⟩
      · show (if is_empty cursor.children then some (index, cursor) else _) = _
        rw [if_pos hemp]
      · have hcc : cursor.children = [] := by
          unfold is_empty at hemp
          simpa using hemp
        rw [runIter_cons, hcc]
        rfl
    · have hcc : cursor.children ≠ [] := by
        intro hcon
        unfold is_empty at hemp
        rw [hcon] at hemp
        exact hemp rfl
      have hlen : 0 < cursor.children.length := List.length_pos.mpr hcc
      have hlc : len_children cursor.children = cursor.children.length := rfl
      set i := len_children cursor.children - 1 with hi
      have hilt : i < cursor.children.length := by omega
      have hget : get_child cursor.children i = some (cursor.children[i]) :=
        List.getElem?_eq_getElem hilt
      set c := cursor.children[i] with hcdef
      have hsize3 : cursor.size = 1 + sizeList cursor.children := by
        cases cursor with
        | mk hh cc => rfl
      have hmemc : c ∈ cursor.children := List.getElem_mem hilt
      have hsle := size_le_sizeList hmemc
      obtain ⟨r, hr1, hr2⟩ := ih c (by omega) (index.push i) f (by omega)
      refine ⟨r, ?_, ?_⟩
      · show (if is_empty cursor.children then some (index, cursor) else
          match get_child cursor.children (len_children cursor.children - 1) with
          | some d => lastDescLoop f (index.push (len_children cursor.children - 1)) d
          | none => none) = some r
        rw [if_neg hemp, ← hi, hget]
        exact hr1
      · have hsnoc : cursor.children = cursor.children.dropLast ++ [c] ∧
            cursor.children.dropLast.length = i := by
          constructor
          · rw [hcdef]
            have hgl : cursor.children[i] = cursor.children.getLast hcc := by
              rw [List.getLast_eq_getElem]
              congr 1
            rw [hgl]
            exact (List.dropLast_append_getLast hcc).symm
          · rw [List.length_dropLast]
            omega
        obtain ⟨hds, hdsl⟩ := hsnoc
        have hX : (runIter (pushChildren index 0 cursor.children)).getLast? =
            (runIter [(index.pushed i, c)]).getLast? := by
          conv_lhs => rw [hds]
          rw [gl_push cursor.children.dropLast c index 0]
          rw [show (0 : Nat) + cursor.children.dropLast.length = i from by omega]
        rw [runIter_cons, List.append_nil]
        show ([(index, cursor)] ++ runIter (pushChildren index 0 cursor.children)).getLast?
            = some r
        rw [List.getLast?_append, hX]
        have hr2' : (runIter [(index.pushed i, c)]).getLast? = some r := hr2
        rw [hr2']
        rfl

theorem gl_initStack : ∀ (cs : List TreeItem) (c : TreeItem) (k : Nat),
    (runIter (initStack k (cs ++ [c]))).getLast? =
      (runIter [(TreeIndex.new_at (k + cs.length), c)]).getLast? := by
  intro cs
  induction cs with
  | nil =>
    intro c k
    rfl
  | cons d ds ih =>
    intro c k
    have hsplit : initStack k ((d :: ds) ++ [c]) =
        [(TreeIndex.new_at k, d)] ++ initStack (k + 1) (ds ++ [c]) := rfl
    rw [hsplit, runIter_append, List.getLast?_append, ih c (k + 1)]
    have harith : k + 1 + ds.length = k + (d :: ds).length := by
      simp only [List.length_cons]
      omega
    rw [harith]
    obtain ⟨y, hy⟩ := Option.isSome_iff_exists.mp
      (List.getLast?_isSome.mpr
        (@runIter_ne_nil (TreeIndex.new_at (k + (d :: ds).length)) c []))
    rw [hy]
    rfl

/-- `find_last_descendant` returns exactly the last element of the pre-order
traversal. -/
theorem find_last_descendant_getLast (cs : List TreeItem) (hcs : cs ≠ []) :
    ∃ r, find_last_descendant cs = some r ∧
      (iter_descendants_with_index cs).getLast? = some r := by
  have hlen : 0 < cs.length := List.length_pos.mpr hcs
  have hlc : len_children cs = cs.length := rfl
  have hilt : cs.length - 1 < cs.length := by omega
  have hdesc : get_descendant cs (TreeIndex.new_at (len_children cs - 1)) =
      some (cs[cs.length - 1]) := by
    show (match get_child cs (TreeIndex.new_at (len_children cs - 1)).first with
      | some c => descend c (TreeIndex.new_at (len_children cs - 1)).iter_rest
      | none => none) = _
    have hfirst : (TreeIndex.new_at (len_children cs - 1)).first = cs.length - 1 := by
      show ((len_children cs - 1) :: ([] : List Nat)).headD 0 = cs.length - 1
      rw [hlc]
      rfl
    rw [hfirst]
    have hg : get_child cs (cs.length - 1) = some (cs[cs.length - 1]) :=
      List.getElem?_eq_getElem hilt
    rw [hg]
    rfl
  obtain ⟨r, hr1, hr2⟩ := lastDescLoop_getLast (cs[cs.length - 1]).size _ le_rfl
    (TreeIndex.new_at (len_children cs - 1)) _ le_rfl
  refine ⟨r, ?_, ?_⟩
  · show (match get_descendant cs (TreeIndex.new_at (len_children cs - 1)) with
      | some cursor => lastDescLoop cursor.size (TreeIndex.new_at (len_children cs - 1)) cursor
      | none => none) = some r
    rw [hdesc]
    exact hr1
  · have hds : cs = cs.dropLast ++ [cs[cs.length - 1]] := by
      have hgl : cs[cs.length - 1] = cs.getLast hcs := by
        rw [List.getLast_eq_getElem]
      rw [hgl]
      exact (List.dropLast_append_getLast hcs).symm
    show (runIter (initStack 0 cs)).getLast? = some r
    conv_lhs => rw [hds]
    rw [gl_initStack cs.dropLast _ 0]
    have harith : (0 : Nat) + cs.dropLast.length = len_children cs - 1 := by
      rw [List.length_dropLast]
      omega
    rw [harith]
    exact hr2

/-- C10: on a non-empty tree, `select_down` from an empty selection selects
the pre-order-last node of the whole tree (the last descendant), while
`select_up` from an empty selection selects the first root-level child. -/
theorem C10_select_none_endpoints (t : Tree) (h : t.children ≠ []) :
    select_down t none = (iter_descendants_with_index t.children).getLast?.map Prod.fst ∧
    select_up t none = some (TreeIndex.new_at 0) := by
  constructor
  · obtain ⟨r, hr1, hr2⟩ := find_last_descendant_getLast t.children h
    show (find_last_descendant t.children).map (fun r => r.1) = _
    rw [hr1, hr2]
  · show (find_first_child t.children).map (fun r => TreeIndex.new_at r.1) = _
    cases hc : t.children with
    | nil => exact absurd hc h
    | cons c cs => simp [find_first_child, get_child]

theorem C10_select_none_endpoints_witness :
    select_down ⟨[TreeItem.mk 1 [TreeItem.mk 2 []]], 0⟩ none =
      (iter_descendants_with_index
        (Tree.children ⟨[TreeItem.mk 1 [TreeItem.mk 2 []]], 0⟩)).getLast?.map Prod.fst ∧
    select_up ⟨[TreeItem.mk 1 [TreeItem.mk 2 []]], 0⟩ none = some (TreeIndex.new_at 0) :=
  C10_select_none_endpoints ⟨[TreeItem.mk 1 [TreeItem.mk 2 []]], 0⟩ (by simp)

-- MARK: claim C6 (next/previous relative are mutual inverses)

theorem descend_append (u v : List Nat) : ∀ (c : TreeItem),
    descend c (u ++ v) = (descend c u).bind (fun w => descend w v) := by
  induction u with
  | nil => intro c; rfl
  | cons i u ih =>
    intro c
    simp only [descend]
    cases hg : get_child c.children i with
    | none => rfl
    | some d => exact ih d

/-- Resolving one more child offset composes. -/
theorem get_descendant_snoc (cs : List TreeItem) (done : List Nat) (i : Nat)
    (hne : done ≠ []) :
    get_descendant cs ⟨done ++ [i]⟩ =
      (get_descendant cs ⟨done⟩).bind (fun w => get_child w.children i) := by
  cases done with
  | nil => exact absurd rfl hne
  | cons d ds =>
    cases hg : get_child cs d with
    | none =>
      have hL : get_descendant cs ⟨(d :: ds) ++ [i]⟩ = none := by
        show (match get_child cs d with
          | some c => descend c (ds ++ [i])
          | none => none) = none
        rw [hg]
      have hR : get_descendant cs ⟨d :: ds⟩ = none := by
        show (match get_child cs d with
          | some c => descend c ds
          | none => none) = none
        rw [hg]
      rw [hL, hR]
      rfl
    | some c =>
      have hL : get_descendant cs ⟨(d :: ds) ++ [i]⟩ = descend c (ds ++ [i]) := by
        show (match get_child cs d with
          | some c => descend c (ds ++ [i])
          | none => none) = _
        rw [hg]
      have hR : get_descendant cs ⟨d :: ds⟩ = descend c ds := by
        show (match get_child cs d with
          | some c => descend c ds
          | none => none) = _
        rw [hg]
      rw [hL, hR, descend_append]
      cases hd : descend c ds with
      | none => rfl
      | some w =>
        show descend w [i] = get_child w.children i
        simp only [descend]
        cases get_child w.children i <;> rfl

/-- `lastDescLoop` is fuel-invariant above the cursor size. -/
theorem lastDescLoop_congr {cursor : TreeItem} {fuel : Nat} (hf : cursor.size ≤ fuel)
    (index : TreeIndex) :
    lastDescLoop fuel index cursor = lastDescLoop cursor.size index cursor := by
  obtain ⟨r1, h1, h2⟩ := lastDescLoop_getLast cursor.size cursor le_rfl index fuel hf
  obtain ⟨r2, h3, h4⟩ := lastDescLoop_getLast cursor.size cursor le_rfl index cursor.size le_rfl
  rw [h1, h3]
  rw [h2] at h4
  exact congrArg some (Option.some.inj h4)

theorem lastDescLoop_leaf {ta : TreeItem} (hleaf : ta.children = []) (index : TreeIndex) :
    lastDescLoop ta.size index ta = some (index, ta) := by
  have hsz : ta.size = 1 + sizeList ta.children := by
    cases ta with
    | mk hh cc => rfl
  rw [hleaf] at hsz
  have : ta.size = 1 := by
    rw [hsz]
    rfl
  rw [this]
  show (if is_empty ta.children then some (index, ta) else _) = _
  rw [if_pos]
  unfold is_empty
  rw [hleaf]
  rfl

/-- Walking into the last child preserves the `lastDescLoop` result. -/
theorem lastDescLoop_step_last {cursor c : TreeItem} {i : Nat}
    (hcc : cursor.children ≠ []) (hi : i = cursor.children.length - 1)
    (hc : cursor.children[i]? = some c) (index : TreeIndex) :
    lastDescLoop cursor.size index cursor = lastDescLoop c.size (index.push i) c := by
  have hsz : cursor.size = 1 + sizeList cursor.children := by
    cases cursor with
    | mk hh cc => rfl
  have hpos := sizeList_pos hcc
  have hone : ∃ f, cursor.size = f + 1 := ⟨cursor.size - 1, by omega⟩
  obtain ⟨f, hf⟩ := hone
  have hemp : ¬ is_empty cursor.children := by
    intro hcon
    unfold is_empty at hcon
    have : cursor.children.length = 0 := by simpa using hcon
    exact hcc (List.eq_nil_of_length_eq_zero this)
  have hstep : lastDescLoop cursor.size index cursor =
      lastDescLoop f (index.push (len_children cursor.children - 1))
        (cursor.children[len_children cursor.children - 1]?.getD c) := by
    rw [hf]
    show (if is_empty cursor.children then some (index, cursor) else
      match get_child cursor.children (len_children cursor.children - 1) with
      | some d => lastDescLoop f (index.push (len_children cursor.children - 1)) d
      | none => none) = _
    rw [if_neg hemp]
    have hlc : len_children cursor.children - 1 = i := by
      have : len_children cursor.children = cursor.children.length := rfl
      omega
    rw [hlc]
    show (match get_child cursor.children i with
      | some d => lastDescLoop f (index.push i) d
      | none => none) = _
    rw [show get_child cursor.children i = some c from hc, hc]
    rfl
  have hlc : len_children cursor.children - 1 = i := by
    have : len_children cursor.children = cursor.children.length := rfl
    omega
  rw [hstep, hlc, hc]
  show lastDescLoop f (index.push i) c = _
  have hcmem : c ∈ cursor.children := List.getElem?_mem hc
  have hcsize := size_le_sizeList hcmem
  exact lastDescLoop_congr (by omega) (index.push i)

/-- `spliced` at the length of a prefix replaces the suffix with one offset. -/
theorem spliced_eq_of_split {a : TreeIndex} {done rest : List Nat}
    (h : a.indices = done ++ rest) (y : Nat) :
    a.spliced done.length y = ⟨done ++ [y]⟩ := by
  show (⟨resizeZero a.indices done.length ++ [y]⟩ : TreeIndex) = _
  have : resizeZero a.indices done.length = done := by
    unfold resizeZero
    rw [h]
    have hle : done.length ≤ (done ++ rest).length := by
      simp
    rw [if_pos hle, List.take_left]
  rw [this]

/-- When the target node has children, the next-relative loop returns its
first child regardless of the accumulated sibling candidate. -/
theorem nextRelLoop_children : ∀ (rest : List Nat) (cursor ta c : TreeItem)
    (l : List TreeItem) (next : Option (TreeIndex × TreeItem)) (a : TreeIndex) (place : Nat),
    descend cursor rest = some ta → ta.children = c :: l →
    nextRelLoop a cursor place next rest = some (a.pushed 0, c) := by
  intro rest
  induction rest with
  | nil =>
    intro cursor ta c l next a place hd hc
    simp only [descend, Option.some.injEq] at hd
    subst hd
    show ((find_first_child cursor.children).map
      (fun x => (a.pushed x.1, x.2))).or next = _
    rw [hc]
    simp [find_first_child, get_child]
  | cons i rest ih =>
    intro cursor ta c l next a place hd hc
    simp only [descend] at hd
    cases hg : get_child cursor.children i with
    | none => rw [hg] at hd; cases hd
    | some d =>
      rw [hg] at hd
      show (match get_child cursor.children i with
        | some e => nextRelLoop a e (place + 1)
            (match find_next_child_to cursor.children i with
             | some (x, sib) => some (a.spliced place x, sib)
             | none => next) rest
        | none => none) = _
      rw [hg]
      exact ih d ta c l _ a (place + 1) hd hc

/-- Invariant of the accumulated `next` candidate while walking a leaf-bound
address: the candidate is a sibling-successor address `pre ++ [x + 1]` whose
node it resolves to, and the last-descendant query at `pre ++ [x]` continues
exactly through the current cursor position. -/
def NextGood (cs : List TreeItem) (q : TreeIndex) (u : TreeItem)
    (done : List Nat) (cursor : TreeItem) : Prop :=
  ∃ pre x, q.indices = pre ++ [x + 1] ∧ get_descendant cs q = some u ∧
    (∀ r, lastDescLoop cursor.size ⟨done⟩ cursor = some r →
      find_last_descendant_in cs ⟨pre ++ [x]⟩ = some r)

/-- The leaf case of the next-relative loop: the returned candidate satisfies
`NextGood` at the final position. -/
theorem nextRelLoop_leaf_spec (cs : List TreeItem) :
    ∀ (rest done : List Nat) (cursor ta : TreeItem)
      (next : Option (TreeIndex × TreeItem)) (a b : TreeIndex) (tb : TreeItem),
    a.indices = done ++ rest → done ≠ [] →
    get_descendant cs ⟨done⟩ = some cursor →
    descend cursor rest = some ta → ta.children = [] →
    (∀ q u, next = some (q, u) → NextGood cs q u done cursor) →
    nextRelLoop a cursor done.length next rest = some (b, tb) →
    NextGood cs b tb a.indices ta := by
  intro rest
  induction rest with
  | nil =>
    intro done cursor ta next a b tb hai hdone hgd hd hleaf hinv hrun
    simp only [descend, Option.some.injEq] at hd
    subst hd
    have hff : find_first_child cursor.children = none := by
      unfold find_first_child
      rw [show get_child cursor.children 0 = none from by
        unfold get_child
        rw [hleaf]
        rfl]
      rfl
    have hrun2 : next = some (b, tb) := by
      have hstep : nextRelLoop a cursor done.length next [] =
          ((find_first_child cursor.children).map
            (fun x => (a.pushed x.1, x.2))).or next := rfl
      rw [hstep, hff] at hrun
      exact hrun
    have hg2 := hinv b tb hrun2
    rw [show done = a.indices from by rw [hai, List.append_nil]] at hg2
    exact hg2
  | cons i rest ih =>
    intro done cursor ta next a b tb hai hdone hgd hd hleaf hinv hrun
    simp only [descend] at hd
    cases hg : get_child cursor.children i with
    | none => rw [hg] at hd; cases hd
    | some c =>
      rw [hg] at hd
      have hgd2 : get_descendant cs ⟨done ++ [i]⟩ = some c := by
        rw [get_descendant_snoc cs done i hdone, hgd]
        exact hg
      have hcsz : cursor.size = 1 + sizeList cursor.children := by
        cases cursor with
        | mk hh cc => rfl
      have hcmem : c ∈ cursor.children := List.getElem?_mem hg
      have hcsle := size_le_sizeList hcmem
      have hrun2 : nextRelLoop a c (done.length + 1)
          (match find_next_child_to cursor.children i with
           | some (x, sib) => some (a.spliced done.length x, sib)
           | none => next) rest = some (b, tb) := by
        have hstep : nextRelLoop a cursor done.length next (i :: rest) =
            (match get_child cursor.children i with
             | some e => nextRelLoop a e (done.length + 1)
                (match find_next_child_to cursor.children i with
                 | some (x, sib) => some (a.spliced done.length x, sib)
                 | none => next) rest
             | none => none) := rfl
        rw [hstep, hg] at hrun
        exact hrun
      have hlen2 : (done ++ [i]).length = done.length + 1 := by simp
      have hinv2 : ∀ q u,
          (match find_next_child_to cursor.children i with
           | some (x, sib) => some (a.spliced done.length x, sib)
           | none => next) = some (q, u) →
          NextGood cs q u (done ++ [i]) c := by
        intro q u hqu
        cases hsib : find_next_child_to cursor.children i with
        | some xs =>
          rw [hsib] at hqu
          cases xs with
          | mk x sib =>
            unfold find_next_child_to at hsib
            by_cases hbound : i + 1 < len_children cursor.children
            · rw [if_pos hbound] at hsib
              cases hgx : get_child cursor.children (i + 1) with
              | none =>
                rw [hgx] at hsib
                cases hsib
              | some sib2 =>
                rw [hgx] at hsib
                have hsib' : (i + 1, sib2) = (x, sib) := by
                  simpa using hsib
                have hx : x = i + 1 := (congrArg Prod.fst hsib').symm
                have hsibeq : sib = sib2 := (congrArg Prod.snd hsib').symm
                have hqu' : (a.spliced done.length x, sib) = (q, u) := Option.some.inj hqu
                have hq : q = a.spliced done.length x := (congrArg Prod.fst hqu').symm
                have hu : u = sib := (congrArg Prod.snd hqu').symm
                refine ⟨done, i, ?_, ?_, ?_⟩
                · rw [hq, hx, spliced_eq_of_split hai]
                · rw [hq, hx, spliced_eq_of_split hai,
                    get_descendant_snoc cs done (i + 1) hdone, hgd]
                  show get_child cursor.children (i + 1) = some u
                  rw [hgx, hu, hsibeq]
                · intro r hr
                  show (match get_descendant cs ⟨done ++ [i]⟩ with
                    | some cur => lastDescLoop cur.size ⟨done ++ [i]⟩ cur
                    | none => none) = some r
                  rw [hgd2]
                  exact hr
            · rw [if_neg hbound] at hsib
              cases hsib
        | none =>
          rw [hsib] at hqu
          obtain ⟨pre, x, hq1, hq2, hq3⟩ := hinv q u hqu
          refine ⟨pre, x, hq1, hq2, ?_⟩
          intro r hr
          refine hq3 r ?_
          unfold find_next_child_to at hsib
          have hbound : ¬ i + 1 < len_children cursor.children := by
            intro hcon
            rw [if_pos hcon] at hsib
            cases hgx : get_child cursor.children (i + 1) with
            | none =>
              have : i + 1 < cursor.children.length := hcon
              unfold get_child at hgx
              rw [List.getElem?_eq_getElem this] at hgx
              cases hgx
            | some z =>
              rw [hgx] at hsib
              cases hsib
          have hilt : i < cursor.children.length := (List.getElem?_eq_some_iff.mp hg).1
          have hlast : i = cursor.children.length - 1 := by
            have : len_children cursor.children = cursor.children.length := rfl
            omega
          have hcc : cursor.children ≠ [] := by
            intro hcon
            rw [hcon] at hilt
            simp at hilt
          rw [lastDescLoop_step_last hcc hlast hg ⟨done⟩]
          exact hr
      have := ih (done ++ [i]) c ta _ a b tb (by rw [hai]; simp) (by simp) hgd2 hd hleaf
        hinv2 (by rw [hlen2]; exact hrun2)
      exact this

/-- The previous-relative loop is determined by its final iteration: on a
valid path the result is the last-descendant of the decremented final offset,
or the parent itself when the final offset is zero. -/
theorem prevRelLoop_last (cs : List TreeItem) :
    ∀ (rest : List Nat) (i : Nat) (done : List Nat) (cursor tb : TreeItem)
      (previous : Option (TreeIndex × TreeItem)),
    done ≠ [] →
    get_descendant cs ⟨done⟩ = some cursor →
    descend cursor (i :: rest) = some tb →
    ((∀ j, (i :: rest).getLast (by simp) = j + 1 →
        prevRelLoop cs ⟨done⟩ cursor previous (i :: rest) =
          find_last_descendant_in cs ⟨(done ++ i :: rest).dropLast ++ [j]⟩) ∧
     ((i :: rest).getLast (by simp) = 0 →
        ∃ w, get_descendant cs ⟨(done ++ i :: rest).dropLast⟩ = some w ∧
          prevRelLoop cs ⟨done⟩ cursor previous (i :: rest) =
            some (⟨(done ++ i :: rest).dropLast⟩, w))) := by
  intro rest
  induction rest with
  | nil =>
    intro i done cursor tb previous hdone hgd hd
    simp only [descend] at hd
    cases hg : get_child cursor.children i with
    | none => rw [hg] at hd; cases hd
    | some c =>
      rw [hg] at hd
      have hilt : i < cursor.children.length := (List.getElem?_eq_some_iff.mp hg).1
      have hstep : prevRelLoop cs ⟨done⟩ cursor previous [i] =
          (match find_previous_child_to cursor.children i with
           | some (j, _) => find_last_descendant_in cs ((⟨done⟩ : TreeIndex).pushed j)
           | none => some (⟨done⟩, cursor)) := by
        show (match get_child cursor.children i with
          | some c => prevRelLoop cs ((⟨done⟩ : TreeIndex).push i) c
              (match find_previous_child_to cursor.children i with
               | some (j, _) => find_last_descendant_in cs ((⟨done⟩ : TreeIndex).pushed j)
               | none => some (⟨done⟩, cursor)) []
          | none => none) = _
        rw [hg]
        rfl
      have hdrop : (done ++ [i]).dropLast = done := by
        rw [List.dropLast_concat]
      constructor
      · intro j hj
        have hij : i = j + 1 := by simpa using hj
        subst hij
        have hjlt : j < cursor.children.length := by omega
        have hprev : find_previous_child_to cursor.children (j + 1) =
            some (j, cursor.children[j]) := by
          unfold find_previous_child_to
          rw [if_pos (by omega)]
          have : get_child cursor.children (j + 1 - 1) =
              some (cursor.children[j]) := by
            show cursor.children[j + 1 - 1]? = _
            rw [show j + 1 - 1 = j from by omega]
            exact List.getElem?_eq_getElem hjlt
          rw [this]
          rfl
        rw [hstep, hprev, hdrop]
        rfl
      · intro hz
        have hiz : i = 0 := by simpa using hz
        subst hiz
        have hprev : find_previous_child_to cursor.children 0 = none := by
          unfold find_previous_child_to
          rw [if_neg (by omega)]
        rw [hstep, hprev, hdrop]
        exact ⟨cursor, hgd, rfl⟩
  | cons r rest ih =>
    intro i done cursor tb previous hdone hgd hd
    simp only [descend] at hd
    cases hg : get_child cursor.children i with
    | none => rw [hg] at hd; cases hd
    | some c =>
      rw [hg] at hd
      have hgd2 : get_descendant cs ⟨done ++ [i]⟩ = some c := by
        rw [get_descendant_snoc cs done i hdone, hgd]
        exact hg
      have hstep : prevRelLoop cs ⟨done⟩ cursor previous (i :: r :: rest) =
          prevRelLoop cs ⟨done ++ [i]⟩ c
            (match find_previous_child_to cursor.children i with
             | some (j, _) => find_last_descendant_in cs ((⟨done⟩ : TreeIndex).pushed j)
             | none => some (⟨done⟩, cursor)) (r :: rest) := by
        show (match get_child cursor.children i with
          | some c => prevRelLoop cs ((⟨done⟩ : TreeIndex).push i) c
              (match find_previous_child_to cursor.children i with
               | some (j, _) => find_last_descendant_in cs ((⟨done⟩ : TreeIndex).pushed j)
               | none => some (⟨done⟩, cursor)) (r :: rest)
          | none => none) = _
        rw [hg]
        rfl
      obtain ⟨ih1, ih2⟩ := ih r (done ++ [i]) c tb _ (by simp) hgd2 hd
      have hlist : (done ++ [i]) ++ r :: rest = done ++ i :: r :: rest := by simp
      have hlast : (r :: rest).getLast (by simp) = (i :: r :: rest).getLast (by simp) :=
        (List.getLast_cons (by simp)).symm
      constructor
      · intro j hj
        rw [hstep]
        rw [hlist] at ih1
        exact ih1 j (by rw [hlast]; exact hj)
      · intro hz
        rw [hstep]
        rw [hlist] at ih2
        exact ih2 (by rw [hlast]; exact hz)

/-- `find_previous_relative_of` at an address ending in `x + 1` is the last
descendant of the sibling address ending in `x`. -/
theorem find_previous_relative_closed (cs : List TreeItem) (pre : List Nat) (x : Nat)
    (tb : TreeItem) (hvb : get_descendant cs ⟨pre ++ [x + 1]⟩ = some tb) :
    find_previous_relative_of cs ⟨pre ++ [x + 1]⟩ =
      find_last_descendant_in cs ⟨pre ++ [x]⟩ := by
  cases pre with
  | nil =>
    have hfirst : (⟨[x + 1]⟩ : TreeIndex).first = x + 1 := rfl
    have hrest : (⟨[x + 1]⟩ : TreeIndex).iter_rest = [] := rfl
    have hvb' : get_descendant cs ⟨[x + 1]⟩ = some tb := hvb
    have hgb : get_child cs (x + 1) = some tb := by
      have : get_descendant cs ⟨[x + 1]⟩ =
          (match get_child cs (x + 1) with
           | some c => descend c []
           | none => none) := rfl
      rw [this] at hvb'
      cases hgx : get_child cs (x + 1) with
      | none => rw [hgx] at hvb'; cases hvb'
      | some c =>
        rw [hgx] at hvb'
        simp only [descend] at hvb'
        exact hvb'
    have hxlt : x + 1 < cs.length := (List.getElem?_eq_some_iff.mp hgb).1
    have hxl : x < cs.length := by omega
    have hgx : get_child cs x = some (cs[x]) :=
      List.getElem?_eq_getElem (by omega)
    have hprev : find_previous_child_to cs (x + 1) = some (x, cs[x]) := by
      unfold find_previous_child_to
      rw [if_pos (by omega)]
      rw [show x + 1 - 1 = x from by omega, hgx]
      rfl
    show (match get_child cs ((⟨[x + 1]⟩ : TreeIndex)).first with
      | none => none
      | some cursor =>
        prevRelLoop cs (TreeIndex.new_at ((⟨[x + 1]⟩ : TreeIndex)).first) cursor
          ((find_previous_child_to cs ((⟨[x + 1]⟩ : TreeIndex)).first).bind
            (fun y => find_last_descendant_in cs
              ((⟨[x + 1]⟩ : TreeIndex).spliced 0 y.1)))
          ((⟨[x + 1]⟩ : TreeIndex)).iter_rest) = _
    rw [hfirst, hrest, hgb, hprev]
    show ((some (x, cs[x])).bind
      (fun y => find_last_descendant_in cs ((⟨[x + 1]⟩ : TreeIndex).spliced 0 y.1))) = _
    have hsp : (⟨[x + 1]⟩ : TreeIndex).spliced 0 x = ⟨[x]⟩ :=
      @spliced_eq_of_split ⟨[x + 1]⟩ [] [x + 1] rfl x
    show find_last_descendant_in cs ((⟨[x + 1]⟩ : TreeIndex).spliced 0 x) = _
    rw [hsp]
    rfl
  | cons p pre' =>
    have hfirst : (⟨(p :: pre') ++ [x + 1]⟩ : TreeIndex).first = p := rfl
    have hrest : (⟨(p :: pre') ++ [x + 1]⟩ : TreeIndex).iter_rest = pre' ++ [x + 1] := rfl
    cases hg0 : get_child cs p with
    | none =>
      exfalso
      have : get_descendant cs ⟨(p :: pre') ++ [x + 1]⟩ = none := by
        show (match get_child cs p with
          | some c => descend c (pre' ++ [x + 1])
          | none => none) = none
        rw [hg0]
      rw [this] at hvb
      cases hvb
    | some cursor0 =>
      have hdesc : descend cursor0 (pre' ++ [x + 1]) = some tb := by
        have : get_descendant cs ⟨(p :: pre') ++ [x + 1]⟩ =
            (match get_child cs p with
             | some c => descend c (pre' ++ [x + 1])
             | none => none) := rfl
        rw [this, hg0] at hvb
        exact hvb
      have hgdp : get_descendant cs ⟨[p]⟩ = some cursor0 := by
        show (match get_child cs p with
          | some c => descend c []
          | none => none) = _
        rw [hg0]
        rfl
      cases hpx : pre' ++ [x + 1] with
      | nil => exact absurd hpx (by simp)
      | cons i rest =>
        have hdesc2 : descend cursor0 (i :: rest) = some tb := by rw [← hpx]; exact hdesc
        obtain ⟨ih1, _⟩ := prevRelLoop_last cs rest i [p] cursor0 tb
          ((find_previous_child_to cs p).bind
            (fun y => find_last_descendant_in cs
              ((⟨(p :: pre') ++ [x + 1]⟩ : TreeIndex).spliced 0 y.1)))
          (by simp) hgdp hdesc2
        have hlastval : (i :: rest).getLast (by simp) = x + 1 := by
          have h1 : (i :: rest).getLast? = some ((i :: rest).getLast (by simp)) :=
            List.getLast?_eq_getLast _ _
          have h2 : (i :: rest).getLast? = some (x + 1) := by
            rw [← hpx]
            exact List.getLast?_concat _
          rw [h1] at h2
          exact Option.some.inj h2
        have hmain := ih1 x hlastval
        have hlists : ([p] ++ i :: rest).dropLast = p :: pre' := by
          have : [p] ++ i :: rest = (p :: pre') ++ [x + 1] := by
            rw [← hpx]
            rfl
          rw [this, List.dropLast_concat]
        rw [hlists] at hmain
        show (match get_child cs ((⟨(p :: pre') ++ [x + 1]⟩ : TreeIndex)).first with
          | none => none
          | some cursor =>
            prevRelLoop cs (TreeIndex.new_at ((⟨(p :: pre') ++ [x + 1]⟩ : TreeIndex)).first)
              cursor
              ((find_previous_child_to cs
                  ((⟨(p :: pre') ++ [x + 1]⟩ : TreeIndex)).first).bind
                (fun y => find_last_descendant_in cs
                  ((⟨(p :: pre') ++ [x + 1]⟩ : TreeIndex).spliced 0 y.1)))
              ((⟨(p :: pre') ++ [x + 1]⟩ : TreeIndex)).iter_rest) = _
        rw [hfirst, hrest, hg0, hpx]
        exact hmain

/-- `find_previous_relative_of` at an address ending in `0` (of depth ≥ 2)
returns the parent. -/
theorem find_previous_relative_zero (cs : List TreeItem) (pre : List Nat)
    (hpre : pre ≠ []) (tb : TreeItem)
    (hvb : get_descendant cs ⟨pre ++ [0]⟩ = some tb) :
    ∃ w, get_descendant cs ⟨pre⟩ = some w ∧
      find_previous_relative_of cs ⟨pre ++ [0]⟩ = some (⟨pre⟩, w) := by
  cases pre with
  | nil => exact absurd rfl hpre
  | cons p pre' =>
    have hfirst : (⟨(p :: pre') ++ [0]⟩ : TreeIndex).first = p := rfl
    have hrest : (⟨(p :: pre') ++ [0]⟩ : TreeIndex).iter_rest = pre' ++ [0] := rfl
    cases hg0 : get_child cs p with
    | none =>
      exfalso
      have : get_descendant cs ⟨(p :: pre') ++ [0]⟩ = none := by
        show (match get_child cs p with
          | some c => descend c (pre' ++ [0])
          | none => none) = none
        rw [hg0]
      rw [this] at hvb
      cases hvb
    | some cursor0 =>
      have hdesc : descend cursor0 (pre' ++ [0]) = some tb := by
        have : get_descendant cs ⟨(p :: pre') ++ [0]⟩ =
            (match get_child cs p with
             | some c => descend c (pre' ++ [0])
             | none => none) := rfl
        rw [this, hg0] at hvb
        exact hvb
      have hgdp : get_descendant cs ⟨[p]⟩ = some cursor0 := by
        show (match get_child cs p with
          | some c => descend c []
          | none => none) = _
        rw [hg0]
        rfl
      cases hpx : pre' ++ [0] with
      | nil => exact absurd hpx (by simp)
      | cons i rest =>
        have hdesc2 : descend cursor0 (i :: rest) = some tb := by rw [← hpx]; exact hdesc
        obtain ⟨_, ih2⟩ := prevRelLoop_last cs rest i [p] cursor0 tb
          ((find_previous_child_to cs p).bind
            (fun y => find_last_descendant_in cs
              ((⟨(p :: pre') ++ [0]⟩ : TreeIndex).spliced 0 y.1)))
          (by simp) hgdp hdesc2
        have hlastval : (i :: rest).getLast (by simp) = 0 := by
          have h1 : (i :: rest).getLast? = some ((i :: rest).getLast (by simp)) :=
            List.getLast?_eq_getLast _ _
          have h2 : (i :: rest).getLast? = some 0 := by
            rw [← hpx]
            exact List.getLast?_concat _
          rw [h1] at h2
          exact Option.some.inj h2
        obtain ⟨w, hw1, hw2⟩ := ih2 hlastval
        have hlists : ([p] ++ i :: rest).dropLast = p :: pre' := by
          have : [p] ++ i :: rest = (p :: pre') ++ [0] := by
            rw [← hpx]
            rfl
          rw [this, List.dropLast_concat]
        rw [hlists] at hw1 hw2
        refine ⟨w, hw1, ?_⟩
        show (match get_child cs ((⟨(p :: pre') ++ [0]⟩ : TreeIndex)).first with
          | none => none
          | some cursor =>
            prevRelLoop cs (TreeIndex.new_at ((⟨(p :: pre') ++ [0]⟩ : TreeIndex)).first)
              cursor
              ((find_previous_child_to cs
                  ((⟨(p :: pre') ++ [0]⟩ : TreeIndex)).first).bind
                (fun y => find_last_descendant_in cs
                  ((⟨(p :: pre') ++ [0]⟩ : TreeIndex).spliced 0 y.1)))
              ((⟨(p :: pre') ++ [0]⟩ : TreeIndex)).iter_rest) = _
        rw [hfirst, hrest, hg0, hpx]
        exact hw2

/-- C6: whenever `find_next_relative_of` on a valid address `a` returns an
address `b`, `find_previous_relative_of` on `b` returns `a`: the full
pre-order next/previous navigations are mutual inverses away from the
endpoints. -/
theorem C6_next_prev_mutual_inverse (cs : List TreeItem) (a : TreeIndex) (ta : TreeItem)
    (hne : a.indices ≠ []) (hvalid : get_descendant cs a = some ta)
    (b : TreeIndex) (tb : TreeItem)
    (hnext : find_next_relative_of cs a = some (b, tb)) :
    (find_previous_relative_of cs b).map Prod.fst = some a := by
  cases hai : a.indices with
  | nil => exact absurd hai hne
  | cons a0 rest =>
    have hfirst : a.first = a0 := by
      rw [TreeIndex.first, hai]
      rfl
    have hrest : a.iter_rest = rest := by
      rw [TreeIndex.iter_rest, hai]
      rfl
    unfold get_descendant at hvalid
    rw [hfirst, hrest] at hvalid
    cases hg0 : get_child cs a0 with
    | none => rw [hg0] at hvalid; cases hvalid
    | some cursor0 =>
      rw [hg0] at hvalid
      unfold find_next_relative_of at hnext
      rw [hfirst, hrest, hg0] at hnext
      have hgdp : get_descendant cs ⟨[a0]⟩ = some cursor0 := by
        show (match get_child cs a0 with
          | some c => descend c []
          | none => none) = _
        rw [hg0]
        rfl
      cases hta : ta.children with
      | cons c l =>
        have heq : some ((a.pushed 0 : TreeIndex), c) = some (b, tb) := by
          rw [← nextRelLoop_children rest cursor0 ta c l
            ((find_next_child_to cs a0).map (fun x => (a.spliced 0 x.1, x.2))) a 1
            hvalid hta]
          exact hnext
        have hb : b = a.pushed 0 := (congrArg Prod.fst (Option.some.inj heq)).symm
        have htb : tb = c := (congrArg Prod.snd (Option.some.inj heq)).symm
        have hbi : b = ⟨a.indices ++ [0]⟩ := by
          rw [hb]
          rfl
        have hvb : get_descendant cs ⟨a.indices ++ [0]⟩ = some c := by
          rw [get_descendant_snoc cs a.indices 0 hne]
          have ha2 : get_descendant cs ⟨a.indices⟩ = some ta := by
            show get_descendant cs a = some ta
            unfold get_descendant
            rw [hfirst, hrest, hg0]
            exact hvalid
          rw [ha2]
          show get_child ta.children 0 = some c
          rw [hta]
          simp [get_child]
        obtain ⟨w, hw1, hw2⟩ := find_previous_relative_zero cs a.indices hne c hvb
        rw [hbi, hw2]
        show some ((⟨a.indices⟩ : TreeIndex)) = some a
        rfl
      | nil =>
        have hinv0 : ∀ q u,
            ((find_next_child_to cs a0).map (fun x => (a.spliced 0 x.1, x.2))) =
              some (q, u) → NextGood cs q u [a0] cursor0 := by
          intro q u hqu
          cases hsib : find_next_child_to cs a0 with
          | none => rw [hsib] at hqu; cases hqu
          | some xs =>
            rw [hsib] at hqu
            cases xs with
            | mk x sib =>
              unfold find_next_child_to at hsib
              by_cases hbound : a0 + 1 < len_children cs
              · rw [if_pos hbound] at hsib
                cases hgx : get_child cs (a0 + 1) with
                | none => rw [hgx] at hsib; cases hsib
                | some sib2 =>
                  rw [hgx] at hsib
                  have hsib' : (a0 + 1, sib2) = (x, sib) := by simpa using hsib
                  have hx : x = a0 + 1 := (congrArg Prod.fst hsib').symm
                  have hsibeq : sib = sib2 := (congrArg Prod.snd hsib').symm
                  have hqu' : (a.spliced 0 x, sib) = (q, u) := Option.some.inj hqu
                  have hq : q = a.spliced 0 x := (congrArg Prod.fst hqu').symm
                  have hu : u = sib := (congrArg Prod.snd hqu').symm
                  have hsp : a.spliced 0 (a0 + 1) = ⟨[a0 + 1]⟩ := by
                    have hgen := @spliced_eq_of_split a [] (a0 :: rest)
                      (by rw [hai]; rfl) (a0 + 1)
                    exact hgen
                  refine ⟨[], a0, ?_, ?_, ?_⟩
                  · rw [hq, hx, hsp]
                    rfl
                  · rw [hq, hx, hsp]
                    show (match get_child cs (a0 + 1) with
                      | some c => descend c []
                      | none => none) = some u
                    rw [hgx]
                    show some sib2 = some u
                    rw [hu, hsibeq]
                  · intro r hr
                    show (match get_descendant cs ⟨[a0]⟩ with
                      | some cur => lastDescLoop cur.size ⟨[a0]⟩ cur
                      | none => none) = some r
                    rw [hgdp]
                    exact hr
              · rw [if_neg hbound] at hsib
                cases hsib
        have hnext2 : nextRelLoop a cursor0 ([a0] : List Nat).length
            ((find_next_child_to cs a0).map (fun x => (a.spliced 0 x.1, x.2))) rest =
            some (b, tb) := hnext
        have hkey := nextRelLoop_leaf_spec cs rest [a0] cursor0 ta
          ((find_next_child_to cs a0).map (fun x => (a.spliced 0 x.1, x.2))) a b tb
          (by rw [hai]; rfl) (by simp) hgdp hvalid hta hinv0 hnext2
        obtain ⟨pre, x, hb1, hb2, hb3⟩ := hkey
        have hleafr : lastDescLoop ta.size ⟨a.indices⟩ ta = some (⟨a.indices⟩, ta) :=
          lastDescLoop_leaf hta ⟨a.indices⟩
        have hfld := hb3 (⟨a.indices⟩, ta) hleafr
        have hbeq : b = ⟨pre ++ [x + 1]⟩ := by
          cases b with
          | mk bi =>
            simp only at hb1
            rw [hb1]
        have hvb : get_descendant cs ⟨pre ++ [x + 1]⟩ = some tb := by
          rw [← hbeq]
          exact hb2
        rw [hbeq, find_previous_relative_closed cs pre x tb hvb, hfld]
        show some ((⟨a.indices⟩ : TreeIndex)) = some a
        rfl

theorem C6_next_prev_mutual_inverse_witness :
    (find_previous_relative_of
      [TreeItem.mk 1 [TreeItem.mk 2 [], TreeItem.mk 3 []],
       TreeItem.mk 4 [TreeItem.mk 5 [], TreeItem.mk 6 []]] ⟨[1]⟩).map Prod.fst =
      some ⟨[0, 1]⟩ :=
  C6_next_prev_mutual_inverse
    [TreeItem.mk 1 [TreeItem.mk 2 [], TreeItem.mk 3 []],
     TreeItem.mk 4 [TreeItem.mk 5 [], TreeItem.mk 6 []]]
    ⟨[0, 1]⟩ (TreeItem.mk 3 []) (by decide) (by rfl)
    ⟨[1]⟩ (TreeItem.mk 4 [TreeItem.mk 5 [], TreeItem.mk 6 []]) (by rfl)

-- MARK: height-range sums for the windowing proofs

theorem sumRange_zero {hs : List Nat} {lo hi : Nat} (h : hi ≤ lo) :
    sumRange hs lo hi = 0 := by
  unfold sumRange
  rw [show hi - lo = 0 from by omega]
  rfl

theorem sumRange_succ_hi {hs : List Nat} {lo hi : Nat} (h : lo ≤ hi) :
    sumRange hs lo (hi + 1) = sumRange hs lo hi + hs.getD hi 0 := by
  unfold sumRange
  rw [show hi + 1 - lo = (hi - lo) + 1 from by omega, List.range_succ]
  rw [List.map_append, List.sum_append]
  simp only [List.map_cons, List.map_nil, List.sum_cons, List.sum_nil]
  rw [show lo + (hi - lo) = hi from by omega]
  omega

theorem sumRange_succ_lo {hs : List Nat} {lo hi : Nat} (h : lo < hi) :
    sumRange hs lo hi = hs.getD lo 0 + sumRange hs (lo + 1) hi := by
  unfold sumRange
  rw [show hi - lo = (hi - (lo + 1)) + 1 from by omega, List.range_succ_eq_map]
  simp only [List.map_cons, List.sum_cons, List.map_map]
  rw [show lo + 0 = lo from by omega]
  congr 1
  refine congrArg List.sum (List.map_congr_left ?_)
  intro k _
  show hs.getD (lo + (k + 1)) 0 = hs.getD ((lo + 1) + k) 0
  congr 1
  omega

theorem sumRange_single (hs : List Nat) (lo : Nat) :
    sumRange hs lo (lo + 1) = hs.getD lo 0 := by
  rw [sumRange_succ_hi le_rfl, sumRange_zero le_rfl]
  omega

theorem sumRange_mono_hi {hs : List Nat} {lo hi hi' : Nat} (h : hi ≤ hi') :
    sumRange hs lo hi ≤ sumRange hs lo hi' := by
  induction hi' with
  | zero =>
    rw [show hi = 0 from by omega]
  | succ m ih =>
    by_cases hm : hi = m + 1
    · rw [hm]
    · have hle : hi ≤ m := by omega
      by_cases hlom : lo ≤ m
      · calc sumRange hs lo hi ≤ sumRange hs lo m := ih hle
          _ ≤ sumRange hs lo (m + 1) := by rw [sumRange_succ_hi hlom]; omega
      · rw [sumRange_zero (by omega), sumRange_zero (by omega)]

theorem sumRange_mono_lo {hs : List Nat} {lo lo' hi : Nat} (h : lo ≤ lo') :
    sumRange hs lo' hi ≤ sumRange hs lo hi := by
  induction lo' with
  | zero =>
    rw [show lo = 0 from by omega]
  | succ m ih =>
    by_cases hm : lo = m + 1
    · rw [hm]
    · have hle : lo ≤ m := by omega
      by_cases hmhi : m < hi
      · calc sumRange hs (m + 1) hi ≤ sumRange hs m hi := by
              rw [sumRange_succ_lo hmhi]; omega
          _ ≤ sumRange hs lo hi := ih hle
      · rw [sumRange_zero (show hi ≤ m + 1 from by omega)]
        exact Nat.zero_le _

theorem getElem?_drop_own {α : Type} : ∀ (i : Nat) (l : List α) (j : Nat),
    (l.drop i)[j]? = l[i + j]? := by
  intro i
  induction i with
  | zero => intro l j; simp
  | succ i ih =>
    intro l j
    cases l with
    | nil => simp
    | cons x xs =>
      show (xs.drop i)[j]? = (x :: xs)[i + 1 + j]?
      rw [ih xs j, show i + 1 + j = (i + j) + 1 from by omega]
      simp

/-- The prefix-sum of the dropped height list is a `sumRange`. -/
theorem sum_take_drop (hs : List Nat) (off : Nat) : ∀ (c : Nat),
    ((hs.drop off).take c).sum = sumRange hs off (off + c) := by
  intro c
  induction c with
  | zero =>
    rw [show off + 0 = off from rfl, sumRange_zero le_rfl]
    rfl
  | succ c ih =>
    rw [List.take_succ, List.sum_append, ih,
      show off + (c + 1) = (off + c) + 1 from by omega,
      sumRange_succ_hi (by omega), getElem?_drop_own]
    congr 1
    rw [List.getD_eq_getElem?_getD]
    cases hs[off + c]? <;> rfl

/-- Correctness of the first fitting loop of `get_items_bounds`. -/
theorem countFit_spec (cap : Nat) : ∀ (l : List Nat) (acc : Nat), acc ≤ cap →
    (countFit cap l acc).1 ≤ l.length ∧
    (countFit cap l acc).2 = acc + (l.take (countFit cap l acc).1).sum ∧
    (countFit cap l acc).2 ≤ cap ∧
    ((countFit cap l acc).1 = l.length ∨
      acc + (l.take ((countFit cap l acc).1 + 1)).sum > cap) := by
  intro l
  induction l with
  | nil =>
    intro acc hacc
    refine ⟨le_rfl, by simp [countFit], by simpa [countFit] using hacc, Or.inl rfl⟩
  | cons h t ih =>
    intro acc hacc
    by_cases hfit : acc + h > cap
    · have hc : countFit cap (h :: t) acc = (0, acc) := by
        show (if acc + h > cap then ((0 : Nat), acc) else _) = _
        rw [if_pos hfit]
      rw [hc]
      refine ⟨by simp, by simp, hacc, Or.inr ?_⟩
      show acc + ((h :: t).take 1).sum > cap
      simpa using hfit
    · have hfit' : acc + h ≤ cap := by omega
      obtain ⟨ih1, ih2, ih3, ih4⟩ := ih (acc + h) hfit'
      have hc : countFit cap (h :: t) acc =
          ((countFit cap t (acc + h)).1 + 1, (countFit cap t (acc + h)).2) := by
        show (if acc + h > cap then ((0 : Nat), acc) else _) = _
        rw [if_neg hfit]
      rw [hc]
      refine ⟨by simp; omega, ?_, ih3, ?_⟩
      · show (countFit cap t (acc + h)).2 =
          acc + ((h :: t).take ((countFit cap t (acc + h)).1 + 1)).sum
        rw [ih2]
        simp
        omega
      · rcases ih4 with h4 | h4
        · left
          simp [h4]
        · right
          show acc + ((h :: t).take ((countFit cap t (acc + h)).1 + 1 + 1)).sum > cap
          simp only [List.take_succ_cons, List.sum_cons]
          omega

/-- Correctness of the leading-item drop loop: with the window-sum invariant
and enough fuel it lands on the first start that fits, never passing a start
that already fits. -/
theorem dropLeading_spec (hs : List Nat) (cap : Nat) : ∀ (fuel first last hfo : Nat),
    hfo = sumRange hs first last → first ≤ last → last - first ≤ fuel →
    first ≤ (dropLeading hs cap fuel first hfo).1 ∧
    (dropLeading hs cap fuel first hfo).1 ≤ last ∧
    (dropLeading hs cap fuel first hfo).2 =
      sumRange hs (dropLeading hs cap fuel first hfo).1 last ∧
    (dropLeading hs cap fuel first hfo).2 ≤ cap ∧
    (∀ g, first ≤ g → sumRange hs g last ≤ cap → (dropLeading hs cap fuel first hfo).1 ≤ g) ∧
    ((dropLeading hs cap fuel first hfo).1 = first ∨
      sumRange hs ((dropLeading hs cap fuel first hfo).1 - 1) last > cap) := by
  intro fuel
  induction fuel with
  | zero =>
    intro first last hfo hsum hfl hfuel
    have : first = last := by omega
    subst this
    rw [sumRange_zero le_rfl] at hsum
    show first ≤ first ∧ first ≤ first ∧ hfo = sumRange hs first first ∧ hfo ≤ cap ∧ _ ∧ _
    rw [sumRange_zero le_rfl]
    exact ⟨le_rfl, le_rfl, hsum, by omega, fun g hg _ => hg, Or.inl rfl⟩
  | succ fuel ih =>
    intro first last hfo hsum hfl hfuel
    by_cases hguard : hfo > cap
    · have hlt : first < last := by
        by_contra hcon
        have : first = last := by omega
        subst this
        rw [sumRange_zero le_rfl] at hsum
        omega
      have hstep : dropLeading hs cap (fuel + 1) first hfo =
          dropLeading hs cap fuel (first + 1) (hfo - hs.getD first 0) := by
        show (if hfo > cap then _ else _) = _
        rw [if_pos hguard]
      have hsum2 : hfo - hs.getD first 0 = sumRange hs (first + 1) last := by
        rw [hsum, sumRange_succ_lo hlt]
        omega
      obtain ⟨ih1, ih2, ih3, ih4, ih5, ih6⟩ :=
        ih (first + 1) last (hfo - hs.getD first 0) hsum2 (by omega) (by omega)
      rw [hstep]
      refine ⟨by omega, ih2, ih3, ih4, ?_, ?_⟩
      · intro g hg hgsum
        have hgne : g ≠ first := by
          intro hcon
          subst hcon
          omega
        exact ih5 g (by omega) hgsum
      · rcases ih6 with h6 | h6
        · right
          rw [h6]
          rw [show first + 1 - 1 = first from by omega]
          omega
        · right
          exact h6
    · have hstep : dropLeading hs cap (fuel + 1) first hfo = (first, hfo) := by
        show (if hfo > cap then _ else _) = _
        rw [if_neg hguard]
      rw [hstep]
      exact ⟨le_rfl, hfl, hsum, by omega, fun g hg _ => hg, Or.inl rfl⟩

/-- Correctness of the forward window expansion. -/
theorem fwdOuter_spec (hs : List Nat) (cap idx : Nat) : ∀ (fuel first last hfo : Nat),
    hfo = sumRange hs first last → first ≤ last → hfo ≤ cap →
    idx + 1 - last ≤ fuel →
    let r := fwdOuter hs cap idx fuel first last hfo
    first ≤ r.1 ∧ r.1 ≤ r.2.1 ∧ last ≤ r.2.1 ∧
    r.2.1 = max last (idx + 1) ∧
    r.2.2 = sumRange hs r.1 r.2.1 ∧ r.2.2 ≤ cap ∧
    (∀ g, first ≤ g → sumRange hs g (max last (idx + 1)) ≤ cap → r.1 ≤ g) ∧
    (r.1 = first ∨ sumRange hs (r.1 - 1) r.2.1 > cap) ∧
    (idx < last → r = (first, last, hfo)) := by
  intro fuel
  induction fuel with
  | zero =>
    intro first last hfo hsum hfl hcap hfuel
    have hlast : idx < last := by omega
    have hstep : fwdOuter hs cap idx 0 first last hfo = (first, last, hfo) := rfl
    show first ≤ (fwdOuter hs cap idx 0 first last hfo).1 ∧ _
    rw [hstep]
    refine ⟨le_rfl, hfl, le_rfl, by show last = max last (idx + 1); omega,
      hsum, hcap, ?_, Or.inl rfl, fun _ => rfl⟩
    intro g hg _
    exact hg
  | succ fuel ih =>
    intro first last hfo hsum hfl hcap hfuel
    by_cases hguard : last ≤ idx
    · have hstep : fwdOuter hs cap idx (fuel + 1) first last hfo =
          fwdOuter hs cap idx fuel
            (dropLeading hs cap (last + 1) first (hfo + hs.getD last 0)).1 (last + 1)
            (dropLeading hs cap (last + 1) first (hfo + hs.getD last 0)).2 := by
        show (if last ≤ idx then _ else _) = _
        rw [if_pos hguard]
      have hsum1 : hfo + hs.getD last 0 = sumRange hs first (last + 1) := by
        rw [hsum, sumRange_succ_hi hfl]
      obtain ⟨hd1, hd2, hd3, hd4, hd5, hd6⟩ :=
        dropLeading_spec hs cap (last + 1) first (last + 1) (hfo + hs.getD last 0)
          hsum1 (by omega) (by omega)
      obtain ⟨ih1, ih2, ih3, ih4, ih5, ih6, ih7, ih8, _⟩ :=
        ih (dropLeading hs cap (last + 1) first (hfo + hs.getD last 0)).1 (last + 1)
          (dropLeading hs cap (last + 1) first (hfo + hs.getD last 0)).2
          hd3 hd2 hd4 (by omega)
      rw [hstep]
      have hmax : max (last + 1) (idx + 1) = max last (idx + 1) := by omega
      refine ⟨by omega, ih2, by omega, by rw [ih4]; omega, ih5, ih6, ?_, ?_, ?_⟩
      · intro g hg hgs
        have hgs1 : sumRange hs g (last + 1) ≤ cap := by
          calc sumRange hs g (last + 1) ≤ sumRange hs g (max last (idx + 1)) :=
                sumRange_mono_hi (by omega)
            _ ≤ cap := hgs
        have hfg := hd5 g hg hgs1
        exact ih7 g hfg (by rw [hmax]; exact hgs)
      · rcases ih8 with h8 | h8
        · rcases hd6 with h6 | h6
          · left
            rw [h8, h6]
          · right
            rw [h8]
            calc cap < sumRange hs ((dropLeading hs cap (last + 1) first
                  (hfo + hs.getD last 0)).1 - 1) (last + 1) := h6
              _ ≤ _ := sumRange_mono_hi (by omega)
        · right
          exact h8
      · intro hcon
        omega
    · have hstep : fwdOuter hs cap idx (fuel + 1) first last hfo = (first, last, hfo) := by
        show (if last ≤ idx then _ else _) = _
        rw [if_neg hguard]
      rw [hstep]
      refine ⟨le_rfl, hfl, le_rfl, by show last = max last (idx + 1); omega,
        hsum, hcap, ?_, Or.inl rfl, fun _ => rfl⟩
      intro g hg _
      exact hg

/-- Correctness of the trailing-item drop loop of the backward expansion. -/
theorem backInner_spec (hs : List Nat) (cap : Nat) : ∀ (last hfo first : Nat),
    hfo = sumRange hs first last → first ≤ last →
    let r := backInner hs cap last hfo
    first ≤ r.1 ∧ r.1 ≤ last ∧ r.2 = sumRange hs first r.1 ∧ r.2 ≤ cap ∧
    (r.1 = last ∨ sumRange hs first (r.1 + 1) > cap) ∧
    (∀ s, sumRange hs first (s + 1) ≤ cap → s < last → s < r.1) := by
  intro last
  induction last with
  | zero =>
    intro hfo first hsum hfl
    have hf0 : first = 0 := by omega
    subst hf0
    rw [sumRange_zero le_rfl] at hsum
    have hstep : backInner hs cap 0 hfo = (0, hfo) := rfl
    show 0 ≤ (backInner hs cap 0 hfo).1 ∧ _
    rw [hstep]
    refine ⟨le_rfl, le_rfl, by rw [sumRange_zero le_rfl]; exact hsum, by omega,
      Or.inl rfl, ?_⟩
    intro s _ hs0
    omega
  | succ last ih =>
    intro hfo first hsum hfl
    by_cases hguard : hfo > cap
    · have hlt : first ≤ last := by
        by_contra hcon
        have : first = last + 1 := by omega
        subst this
        rw [sumRange_zero le_rfl] at hsum
        omega
      have hstep : backInner hs cap (last + 1) hfo =
          backInner hs cap last (hfo - hs.getD last 0) := by
        show (if hfo > cap then _ else _) = _
        rw [if_pos hguard]
      have hsum2 : hfo - hs.getD last 0 = sumRange hs first last := by
        rw [hsum, sumRange_succ_hi hlt]
        omega
      obtain ⟨ih1, ih2, ih3, ih4, ih5, ih6⟩ := ih (hfo - hs.getD last 0) first hsum2 hlt
      rw [hstep]
      refine ⟨ih1, by omega, ih3, ih4, ?_, ?_⟩
      · rcases ih5 with h5 | h5
        · right
          rw [h5, ← hsum2] at *
          rw [h5]
          have : sumRange hs first (last + 1) = hfo := hsum.symm
          omega
        · right
          exact h5
      · intro s hsle hslt
        by_cases hseq : s = last
        · subst hseq
          rw [hsum] at hguard
          omega
        · exact ih6 s hsle (by omega)
    · have hstep : backInner hs cap (last + 1) hfo = (last + 1, hfo) := by
        show (if hfo > cap then _ else _) = _
        rw [if_neg hguard]
      show first ≤ (backInner hs cap (last + 1) hfo).1 ∧ _
      rw [hstep]
      exact ⟨hfl, le_rfl, hsum, by omega, Or.inl rfl, fun s _ hslt => hslt⟩

/-- Correctness of the backward window expansion. -/
theorem backOuter_spec (hs : List Nat) (cap idx : Nat) : ∀ (first last hfo : Nat),
    hfo = sumRange hs first last → first ≤ last → hfo ≤ cap →
    let r := backOuter hs cap idx first last hfo
    r.1 = min first idx ∧ r.1 ≤ r.2.1 ∧ r.2.1 ≤ last ∧
    r.2.2 = sumRange hs r.1 r.2.1 ∧ r.2.2 ≤ cap ∧
    (r.2.1 = last ∨ sumRange hs r.1 (r.2.1 + 1) > cap) ∧
    (∀ s, sumRange hs (min first idx) (s + 1) ≤ cap → s < last → s < r.2.1) ∧
    (first ≤ idx → r = (first, last, hfo)) := by
  intro first
  induction first with
  | zero =>
    intro last hfo hsum hfl hcap
    have hstep : backOuter hs cap idx 0 last hfo = (0, last, hfo) := rfl
    show (backOuter hs cap idx 0 last hfo).1 = min 0 idx ∧ _
    rw [hstep]
    refine ⟨by omega, hfl, le_rfl, by simpa using hsum, hcap, Or.inl rfl, ?_,
      fun _ => rfl⟩
    intro s _ hslt
    exact hslt
  | succ f ih =>
    intro last hfo hsum hfl hcap
    by_cases hguard : idx < f + 1
    · have hstep : backOuter hs cap idx (f + 1) last hfo =
          backOuter hs cap idx f (backInner hs cap last (hfo + hs.getD f 0)).1
            (backInner hs cap last (hfo + hs.getD f 0)).2 := by
        show (if idx < f + 1 then _ else _) = _
        rw [if_pos hguard]
      have hsum1 : hfo + hs.getD f 0 = sumRange hs f last := by
        rw [hsum, sumRange_succ_lo (show f < last from by omega)]
        omega
      obtain ⟨hb1, hb2, hb3, hb4, hb5, hb6⟩ :=
        backInner_spec hs cap last (hfo + hs.getD f 0) f hsum1 (by omega)
      obtain ⟨ih1, ih2, ih3, ih4, ih5, ih6, ih7, _⟩ :=
        ih (backInner hs cap last (hfo + hs.getD f 0)).1
          (backInner hs cap last (hfo + hs.getD f 0)).2 hb3 hb1 hb4
      rw [hstep]
      have hminf : min f idx = min (f + 1) idx := by omega
      refine ⟨by rw [ih1]; omega, ih2, by omega, ih4, ih5, ?_, ?_, ?_⟩
      · rcases ih6 with h6 | h6
        · rcases hb5 with h5 | h5
          · left
            rw [h6, h5]
          · right
            rw [h6]
            calc cap < sumRange hs f
                  ((backInner hs cap last (hfo + hs.getD f 0)).1 + 1) := h5
              _ ≤ sumRange hs (backOuter hs cap idx f
                    (backInner hs cap last (hfo + hs.getD f 0)).1
                    (backInner hs cap last (hfo + hs.getD f 0)).2).1
                  ((backInner hs cap last (hfo + hs.getD f 0)).1 + 1) := by
                    apply sumRange_mono_lo
                    rw [ih1]
                    omega
        · right
          exact h6
      · intro s hsle hslt
        have hsle2 : sumRange hs f (s + 1) ≤ cap := by
          calc sumRange hs f (s + 1) ≤ sumRange hs (min (f + 1) idx) (s + 1) := by
                apply sumRange_mono_lo
                omega
            _ ≤ cap := hsle
        have hs1 := hb6 s hsle2 hslt
        exact ih7 s (by rw [hminf]; exact hsle) (by omega)
      · intro hcon
        omega
    · have hstep : backOuter hs cap idx (f + 1) last hfo = (f + 1, last, hfo) := by
        show (if idx < f + 1 then _ else _) = _
        rw [if_neg hguard]
      show (backOuter hs cap idx (f + 1) last hfo).1 = min (f + 1) idx ∧ _
      rw [hstep]
      refine ⟨by omega, hfl, le_rfl, hsum, hcap, Or.inl rfl, ?_, fun _ => rfl⟩
      intro s _ hslt
      exact hslt

theorem heightsOf_length (cs : List TreeItem) :
    (heightsOf cs).length = lenDescList cs := by
  unfold heightsOf
  rw [List.length_map, iter_descendants_eq_map_snd, List.length_map,
    length_iter_descendants_with_index]

/-- Componentwise unfolding of `get_items_bounds`. -/
theorem gib_eq_pipeline (t : Tree) (sel : Option TreeIndex) (off cap : Nat)
    (off' fitc fith idx f1 l1 h1 f2 l2 h2 : Nat)
    (hoff : off' = min off (lenDescList t.children - 1))
    (hfit : countFit cap ((heightsOf t.children).drop off') 0 = (fitc, fith))
    (hidx : idx = (apply_scroll_padding_to_selected_index t sel cap off'
      (off' + fitc)).getD off')
    (hr1 : fwdOuter (heightsOf t.children) cap idx (idx + 1) off' (off' + fitc) fith =
      (f1, l1, h1))
    (hr2 : backOuter (heightsOf t.children) cap idx f1 l1 h1 = (f2, l2, h2)) :
    get_items_bounds t sel off cap = (f2, l2) := by
  subst hoff
  subst hidx
  unfold get_items_bounds
  dsimp only
  rw [hfit]
  dsimp only
  rw [hr1]
  dsimp only
  rw [hr2]

/-- C9: the items of the returned window always fit the viewport: the sum of
the heights over `[firstVisible, lastVisibleExclusive)` never exceeds
`max_height`. -/
theorem C9_window_fits_viewport (t : Tree) (selected : Option TreeIndex)
    (offset max_height : Nat) :
    sumRange (heightsOf t.children) (get_items_bounds t selected offset max_height).1
      (get_items_bounds t selected offset max_height).2 ≤ max_height := by
  rcases hfit : countFit max_height
    ((heightsOf t.children).drop (min offset (lenDescList t.children - 1))) 0
    with ⟨fitc, fith⟩
  rcases hr1 : fwdOuter (heightsOf t.children) max_height
    ((apply_scroll_padding_to_selected_index t selected max_height
        (min offset (lenDescList t.children - 1))
        (min offset (lenDescList t.children - 1) + fitc)).getD
      (min offset (lenDescList t.children - 1)))
    ((apply_scroll_padding_to_selected_index t selected max_height
        (min offset (lenDescList t.children - 1))
        (min offset (lenDescList t.children - 1) + fitc)).getD
      (min offset (lenDescList t.children - 1)) + 1)
    (min offset (lenDescList t.children - 1))
    (min offset (lenDescList t.children - 1) + fitc) fith with ⟨f1, l1, h1⟩
  rcases hr2 : backOuter (heightsOf t.children) max_height
    ((apply_scroll_padding_to_selected_index t selected max_height
        (min offset (lenDescList t.children - 1))
        (min offset (lenDescList t.children - 1) + fitc)).getD
      (min offset (lenDescList t.children - 1)))
    f1 l1 h1 with ⟨f2, l2, h2⟩
  rw [gib_eq_pipeline t selected offset max_height _ fitc fith _ f1 l1 h1 f2 l2 h2
    rfl hfit rfl hr1 hr2]
  obtain ⟨hc1, hc2, hc3, hc4⟩ := countFit_spec max_height
    ((heightsOf t.children).drop (min offset (lenDescList t.children - 1))) 0
    (Nat.zero_le _)
  have e1 : (countFit max_height
      ((heightsOf t.children).drop (min offset (lenDescList t.children - 1))) 0).2 =
      fith := by rw [hfit]
  have e2 : (countFit max_height
      ((heightsOf t.children).drop (min offset (lenDescList t.children - 1))) 0).1 =
      fitc := by rw [hfit]
  have hsum0 : fith = sumRange (heightsOf t.children)
      (min offset (lenDescList t.children - 1))
      (min offset (lenDescList t.children - 1) + fitc) := by
    rw [← e1, hc2, e2, sum_take_drop]
    omega
  have hcap0 : fith ≤ max_height := by
    rw [← e1]
    exact hc3
  have hfw := fwdOuter_spec (heightsOf t.children) max_height
    ((apply_scroll_padding_to_selected_index t selected max_height
        (min offset (lenDescList t.children - 1))
        (min offset (lenDescList t.children - 1) + fitc)).getD
      (min offset (lenDescList t.children - 1)))
    ((apply_scroll_padding_to_selected_index t selected max_height
        (min offset (lenDescList t.children - 1))
        (min offset (lenDescList t.children - 1) + fitc)).getD
      (min offset (lenDescList t.children - 1)) + 1)
    (min offset (lenDescList t.children - 1))
    (min offset (lenDescList t.children - 1) + fitc) fith
    hsum0 (by omega) hcap0 (by omega)
  rw [hr1] at hfw
  obtain ⟨hf1, hf2, hf3, hf4, hf5, hf6, _, _, _⟩ := hfw
  have hbk := backOuter_spec (heightsOf t.children) max_height
    ((apply_scroll_padding_to_selected_index t selected max_height
        (min offset (lenDescList t.children - 1))
        (min offset (lenDescList t.children - 1) + fitc)).getD
      (min offset (lenDescList t.children - 1)))
    f1 l1 h1 hf5 hf2 hf6
  rw [hr2] at hbk
  obtain ⟨_, _, _, hb4, hb5, _, _, _⟩ := hbk
  show sumRange (heightsOf t.children) f2 l2 ≤ max_height
  rw [← hb4]
  exact hb5

/-- When the full centred window already fits, no padding reduction happens. -/
theorem padReduce_full (hs : List Nat) (cap lvi s p0 : Nat)
    (h : sumRange hs (s - p0) (min (s + p0) lvi + 1) ≤ cap) :
    padReduce hs cap lvi s p0 = p0 := by
  cases p0 with
  | zero => rfl
  | succ p =>
    show (if sumRange hs (s - (p + 1)) (min (s + (p + 1)) lvi + 1) ≤ cap then p + 1
      else padReduce hs cap lvi s p) = p + 1
    rw [if_pos h]

/-- The padding-reduction result, when positive, certifies its centred window
fits. -/
theorem padReduce_fits (hs : List Nat) (cap lvi s : Nat) : ∀ (p0 : Nat),
    padReduce hs cap lvi s p0 = 0 ∨
    sumRange hs (s - padReduce hs cap lvi s p0)
      (min (s + padReduce hs cap lvi s p0) lvi + 1) ≤ cap := by
  intro p0
  induction p0 with
  | zero => exact Or.inl rfl
  | succ p ih =>
    by_cases hfit : sumRange hs (s - (p + 1)) (min (s + (p + 1)) lvi + 1) ≤ cap
    · right
      have hstep : padReduce hs cap lvi s (p + 1) = p + 1 := by
        show (if sumRange hs (s - (p + 1)) (min (s + (p + 1)) lvi + 1) ≤ cap then p + 1
          else padReduce hs cap lvi s p) = p + 1
        rw [if_pos hfit]
      rw [hstep]
      exact hfit
    · have hstep : padReduce hs cap lvi s (p + 1) = padReduce hs cap lvi s p := by
        show (if sumRange hs (s - (p + 1)) (min (s + (p + 1)) lvi + 1) ≤ cap then p + 1
          else padReduce hs cap lvi s p) = _
        rw [if_neg hfit]
      rw [hstep]
      exact ih

/-- The greedy fit count covers any fitting prefix. -/
theorem countFit_lower (hs : List Nat) (cap off m : Nat)
    (hm : off + m ≤ hs.length) (hsum : sumRange hs off (off + m) ≤ cap) :
    m ≤ (countFit cap (hs.drop off) 0).1 := by
  obtain ⟨hc1, hc2, hc3, hc4⟩ := countFit_spec cap (hs.drop off) 0 (Nat.zero_le _)
  by_contra hcon
  push_neg at hcon
  rcases hc4 with h4 | h4
  · rw [List.length_drop] at h4
    omega
  · rw [sum_take_drop] at h4
    have : sumRange hs off (off + ((countFit cap (hs.drop off) 0).1 + 1)) ≤
        sumRange hs off (off + m) := sumRange_mono_hi (by omega)
    omega

/-- The greedy fit count stops at the first overflow. -/
theorem countFit_upper (hs : List Nat) (cap off m : Nat)
    (h : sumRange hs off (off + m + 1) > cap) :
    (countFit cap (hs.drop off) 0).1 ≤ m := by
  obtain ⟨hc1, hc2, hc3, hc4⟩ := countFit_spec cap (hs.drop off) 0 (Nat.zero_le _)
  by_contra hcon
  push_neg at hcon
  rw [sum_take_drop] at hc2
  have : sumRange hs off (off + m + 1) ≤
      sumRange hs off (off + (countFit cap (hs.drop off) 0).1) :=
    sumRange_mono_hi (by omega)
  omega

/-- Unfolding of `apply_scroll_padding_to_selected_index` for a selection with
a known linear offset. -/
theorem apply_eq_of_offset (t : Tree) (a : TreeIndex) (k : Nat) (node : TreeItem)
    (cap fv lv : Nat)
    (hk : find_offset_of_index t.children a = some (k, node)) :
    apply_scroll_padding_to_selected_index t (some a) cap fv lv =
      some (min
        (if min (min k (lenDescList t.children - 1) +
              padReduce (heightsOf t.children) cap (lenDescList t.children - 1)
                (min k (lenDescList t.children - 1)) t.scroll_padding)
            (lenDescList t.children - 1) ≥ lv
         then min k (lenDescList t.children - 1) +
            padReduce (heightsOf t.children) cap (lenDescList t.children - 1)
              (min k (lenDescList t.children - 1)) t.scroll_padding
         else if min k (lenDescList t.children - 1) -
              padReduce (heightsOf t.children) cap (lenDescList t.children - 1)
                (min k (lenDescList t.children - 1)) t.scroll_padding < fv
         then min k (lenDescList t.children - 1) -
            padReduce (heightsOf t.children) cap (lenDescList t.children - 1)
              (min k (lenDescList t.children - 1)) t.scroll_padding
         else min k (lenDescList t.children - 1))
        (lenDescList t.children - 1)) := by
  unfold apply_scroll_padding_to_selected_index
  dsimp only
  rw [show (some a).bind (fun ix => find_offset_of_index t.children ix) =
    some (k, node) from hk]

/-- C1: whenever the heights of the `2 * padding + 1` items centred on the
selected offset (clamped to valid offsets) fit the viewport, the returned
window contains the selected offset. -/
theorem C1_window_contains_selection (t : Tree) (a : TreeIndex) (k : Nat)
    (node : TreeItem) (off cap : Nat)
    (hk : find_offset_of_index t.children a = some (k, node))
    (hpad : sumRange (heightsOf t.children) (k - t.scroll_padding)
      (min (k + t.scroll_padding) (lenDescList t.children - 1) + 1) ≤ cap) :
    (get_items_bounds t (some a) off cap).1 ≤ k ∧
    k < (get_items_bounds t (some a) off cap).2 := by
  have hn : (heightsOf t.children).length = lenDescList t.children := heightsOf_length _
  have hkn : k < lenDescList t.children := by
    obtain ⟨k2, hk2e, hk2⟩ := getElem_of_findOffsetScan a node _ 0 k hk
    have hlt := (List.getElem?_eq_some_iff.mp hk2).1
    rw [length_iter_descendants_with_index] at hlt
    omega
  have hklvi : k ≤ lenDescList t.children - 1 := by omega
  have hmin : min k (lenDescList t.children - 1) = k := by omega
  have hfull : padReduce (heightsOf t.children) cap (lenDescList t.children - 1)
      (min k (lenDescList t.children - 1)) t.scroll_padding = t.scroll_padding := by
    rw [hmin]
    exact padReduce_full _ _ _ _ _ hpad
  rcases hfit : countFit cap
    ((heightsOf t.children).drop (min off (lenDescList t.children - 1))) 0
    with ⟨fitc, fith⟩
  have happly : apply_scroll_padding_to_selected_index t (some a) cap
      (min off (lenDescList t.children - 1))
      (min off (lenDescList t.children - 1) + fitc) =
      some (min
        (if min (k + t.scroll_padding) (lenDescList t.children - 1) ≥
            min off (lenDescList t.children - 1) + fitc
         then k + t.scroll_padding
         else if k - t.scroll_padding < min off (lenDescList t.children - 1)
         then k - t.scroll_padding
         else k)
        (lenDescList t.children - 1)) := by
    rw [apply_eq_of_offset t a k node cap _ _ hk, hfull, hmin]
  have hidxv : (apply_scroll_padding_to_selected_index t (some a) cap
      (min off (lenDescList t.children - 1))
      (min off (lenDescList t.children - 1) + fitc)).getD
      (min off (lenDescList t.children - 1)) =
      min
        (if min (k + t.scroll_padding) (lenDescList t.children - 1) ≥
            min off (lenDescList t.children - 1) + fitc
         then k + t.scroll_padding
         else if k - t.scroll_padding < min off (lenDescList t.children - 1)
         then k - t.scroll_padding
         else k)
        (lenDescList t.children - 1) := by
    rw [happly]
    rfl
  rcases hr1 : fwdOuter (heightsOf t.children) cap
    (min
      (if min (k + t.scroll_padding) (lenDescList t.children - 1) ≥
          min off (lenDescList t.children - 1) + fitc
       then k + t.scroll_padding
       else if k - t.scroll_padding < min off (lenDescList t.children - 1)
       then k - t.scroll_padding
       else k)
      (lenDescList t.children - 1))
    (min
      (if min (k + t.scroll_padding) (lenDescList t.children - 1) ≥
          min off (lenDescList t.children - 1) + fitc
       then k + t.scroll_padding
       else if k - t.scroll_padding < min off (lenDescList t.children - 1)
       then k - t.scroll_padding
       else k)
      (lenDescList t.children - 1) + 1)
    (min off (lenDescList t.children - 1))
    (min off (lenDescList t.children - 1) + fitc) fith with ⟨f1, l1, h1⟩
  rcases hr2 : backOuter (heightsOf t.children) cap
    (min
      (if min (k + t.scroll_padding) (lenDescList t.children - 1) ≥
          min off (lenDescList t.children - 1) + fitc
       then k + t.scroll_padding
       else if k - t.scroll_padding < min off (lenDescList t.children - 1)
       then k - t.scroll_padding
       else k)
      (lenDescList t.children - 1))
    f1 l1 h1 with ⟨f2, l2, h2⟩
  rw [gib_eq_pipeline t (some a) off cap _ fitc fith _ f1 l1 h1 f2 l2 h2
    rfl hfit hidxv.symm hr1 hr2]
  obtain ⟨hc1, hc2, hc3, hc4⟩ := countFit_spec cap
    ((heightsOf t.children).drop (min off (lenDescList t.children - 1))) 0 (Nat.zero_le _)
  have e1 : (countFit cap
      ((heightsOf t.children).drop (min off (lenDescList t.children - 1))) 0).2 =
      fith := by rw [hfit]
  have e2 : (countFit cap
      ((heightsOf t.children).drop (min off (lenDescList t.children - 1))) 0).1 =
      fitc := by rw [hfit]
  have hsum0 : fith = sumRange (heightsOf t.children)
      (min off (lenDescList t.children - 1))
      (min off (lenDescList t.children - 1) + fitc) := by
    rw [← e1, hc2, e2, sum_take_drop]
    omega
  have hcap0 : fith ≤ cap := by
    rw [← e1]
    exact hc3
  have hfw := fwdOuter_spec (heightsOf t.children) cap
    (min
      (if min (k + t.scroll_padding) (lenDescList t.children - 1) ≥
          min off (lenDescList t.children - 1) + fitc
       then k + t.scroll_padding
       else if k - t.scroll_padding < min off (lenDescList t.children - 1)
       then k - t.scroll_padding
       else k)
      (lenDescList t.children - 1))
    (min
      (if min (k + t.scroll_padding) (lenDescList t.children - 1) ≥
          min off (lenDescList t.children - 1) + fitc
       then k + t.scroll_padding
       else if k - t.scroll_padding < min off (lenDescList t.children - 1)
       then k - t.scroll_padding
       else k)
      (lenDescList t.children - 1) + 1)
    (min off (lenDescList t.children - 1))
    (min off (lenDescList t.children - 1) + fitc) fith hsum0 (by omega) hcap0 (by omega)
  rw [hr1] at hfw
  obtain ⟨hf1, hf2, hf3, hf4, hf5, hf6, hf7, hf8, hf9⟩ := hfw
  dsimp only at hf4
  have hbk := backOuter_spec (heightsOf t.children) cap
    (min
      (if min (k + t.scroll_padding) (lenDescList t.children - 1) ≥
          min off (lenDescList t.children - 1) + fitc
       then k + t.scroll_padding
       else if k - t.scroll_padding < min off (lenDescList t.children - 1)
       then k - t.scroll_padding
       else k)
      (lenDescList t.children - 1))
    f1 l1 h1 hf5 hf2 hf6
  rw [hr2] at hbk
  obtain ⟨hb1c, hb2c, hb3c, hb4c, hb5c, hb6c, hb7c, hb8c⟩ := hbk
  dsimp only at hb1c
  show f2 ≤ k ∧ k < l2
  by_cases hbr1 : min (k + t.scroll_padding) (lenDescList t.children - 1) ≥
      min off (lenDescList t.children - 1) + fitc
  · have hidxeq : min
        (if min (k + t.scroll_padding) (lenDescList t.children - 1) ≥
            min off (lenDescList t.children - 1) + fitc
         then k + t.scroll_padding
         else if k - t.scroll_padding < min off (lenDescList t.children - 1)
         then k - t.scroll_padding
         else k)
        (lenDescList t.children - 1) =
        min (k + t.scroll_padding) (lenDescList t.children - 1) := by
      rw [if_pos hbr1]
    have hoffk : min off (lenDescList t.children - 1) ≤ k := by
      by_contra hcon
      push_neg at hcon
      have hsub : sumRange (heightsOf t.children) (min off (lenDescList t.children - 1))
          (min (k + t.scroll_padding) (lenDescList t.children - 1) + 1) ≤ cap :=
        le_trans (sumRange_mono_lo (by omega)) hpad
      have hlow := countFit_lower (heightsOf t.children) cap
        (min off (lenDescList t.children - 1))
        (min (k + t.scroll_padding) (lenDescList t.children - 1) + 1 -
          min off (lenDescList t.children - 1))
        (by omega)
        (by
          rw [show min off (lenDescList t.children - 1) +
            (min (k + t.scroll_padding) (lenDescList t.children - 1) + 1 -
              min off (lenDescList t.children - 1)) =
            min (k + t.scroll_padding) (lenDescList t.children - 1) + 1 from by omega]
          exact hsub)
      rw [e2] at hlow
      omega
    have hf1k : f1 ≤ k := by
      apply hf7 k hoffk
      rw [hidxeq]
      have hmax : max (min off (lenDescList t.children - 1) + fitc)
          (min (k + t.scroll_padding) (lenDescList t.children - 1) + 1) =
          min (k + t.scroll_padding) (lenDescList t.children - 1) + 1 := by
        omega
      rw [hmax]
      exact le_trans (sumRange_mono_lo (by omega)) hpad
    have hback_noop : (f2, l2, h2) = (f1, l1, h1) := by
      apply hb8c
      rw [hidxeq]
      omega
    have hf2f1 : f2 = f1 := congrArg (fun p => p.1) hback_noop
    have hl2l1 : l2 = l1 := congrArg (fun p => p.2.1) hback_noop
    constructor
    · rw [hf2f1]
      exact hf1k
    · rw [hl2l1, hf4, hidxeq]
      omega
  · by_cases hbr2 : k - t.scroll_padding < min off (lenDescList t.children - 1)
    · have hidxeq : min
          (if min (k + t.scroll_padding) (lenDescList t.children - 1) ≥
              min off (lenDescList t.children - 1) + fitc
           then k + t.scroll_padding
           else if k - t.scroll_padding < min off (lenDescList t.children - 1)
           then k - t.scroll_padding
           else k)
          (lenDescList t.children - 1) = k - t.scroll_padding := by
        rw [if_neg hbr1, if_pos hbr2]
        omega
      have hfwd_noop : (f1, l1, h1) =
          (min off (lenDescList t.children - 1),
           min off (lenDescList t.children - 1) + fitc, fith) := by
        apply hf9
        rw [hidxeq]
        omega
      have hf1e : f1 = min off (lenDescList t.children - 1) :=
        congrArg (fun p => p.1) hfwd_noop
      have hl1e : l1 = min off (lenDescList t.children - 1) + fitc :=
        congrArg (fun p => p.2.1) hfwd_noop
      constructor
      · rw [hb1c, hidxeq, hf1e]
        omega
      · apply hb7c k
        · rw [hidxeq, hf1e]
          rw [show min (min off (lenDescList t.children - 1))
            (k - t.scroll_padding) = k - t.scroll_padding from by omega]
          refine le_trans (sumRange_mono_hi ?_) hpad
          omega
        · rw [hl1e]
          omega
    · have hidxeq : min
          (if min (k + t.scroll_padding) (lenDescList t.children - 1) ≥
              min off (lenDescList t.children - 1) + fitc
           then k + t.scroll_padding
           else if k - t.scroll_padding < min off (lenDescList t.children - 1)
           then k - t.scroll_padding
           else k)
          (lenDescList t.children - 1) = k := by
        rw [if_neg hbr1, if_neg hbr2]
        omega
      have hfwd_noop : (f1, l1, h1) =
          (min off (lenDescList t.children - 1),
           min off (lenDescList t.children - 1) + fitc, fith) := by
        apply hf9
        rw [hidxeq]
        omega
      have hf1e : f1 = min off (lenDescList t.children - 1) :=
        congrArg (fun p => p.1) hfwd_noop
      have hl1e : l1 = min off (lenDescList t.children - 1) + fitc :=
        congrArg (fun p => p.2.1) hfwd_noop
      have hback_noop : (f2, l2, h2) = (f1, l1, h1) := by
        apply hb8c
        rw [hidxeq, hf1e]
        omega
      have hf2f1 : f2 = f1 := congrArg (fun p => p.1) hback_noop
      have hl2l1 : l2 = l1 := congrArg (fun p => p.2.1) hback_noop
      constructor
      · rw [hf2f1, hf1e]
        omega
      · rw [hl2l1, hl1e]
        omega

theorem C1_window_contains_selection_witness :
    (get_items_bounds ⟨List.replicate 10 (TreeItem.mk 1 []), 1⟩ (some ⟨[9]⟩) 0 4).1 ≤ 9 ∧
    9 < (get_items_bounds ⟨List.replicate 10 (TreeItem.mk 1 []), 1⟩ (some ⟨[9]⟩) 0 4).2 :=
  C1_window_contains_selection ⟨List.replicate 10 (TreeItem.mk 1 []), 1⟩ ⟨[9]⟩ 9
    (TreeItem.mk 1 []) 0 4 (by rfl) (by decide)

/-- `get_items_bounds` depends on the offset argument only through its clamp
to the valid range. -/
theorem gib_off_eq (t : Tree) (sel : Option TreeIndex) (cap o1 o2 : Nat)
    (h : min o1 (lenDescList t.children - 1) = min o2 (lenDescList t.children - 1)) :
    get_items_bounds t sel o1 cap = get_items_bounds t sel o2 cap := by
  unfold get_items_bounds
  dsimp only
  rw [h]

/-- Offsets at most `selected - padding` whose forward window covers the
(clamped) padded selection are fixed points of the windowing first component. -/
theorem gib_stationary_of_fits (t : Tree) (a : TreeIndex) (k : Nat) (node : TreeItem)
    (cap F L : Nat)
    (hk : find_offset_of_index t.children a = some (k, node))
    (hkp : F ≤ k - padReduce (heightsOf t.children) cap (lenDescList t.children - 1)
      k t.scroll_padding)
    (hL : sumRange (heightsOf t.children) F L ≤ cap)
    (heL : min (k + padReduce (heightsOf t.children) cap (lenDescList t.children - 1)
      k t.scroll_padding) (lenDescList t.children - 1) < L)
    (hLn : L ≤ lenDescList t.children) :
    (get_items_bounds t (some a) F cap).1 = F := by
  have hn : (heightsOf t.children).length = lenDescList t.children := heightsOf_length _
  have hkn : k < lenDescList t.children := by
    obtain ⟨k2, hk2e, hk2⟩ := getElem_of_findOffsetScan a node _ 0 k hk
    have hlt := (List.getElem?_eq_some_iff.mp hk2).1
    rw [length_iter_descendants_with_index] at hlt
    omega
  have hklvi : k ≤ lenDescList t.children - 1 := by omega
  have hmin : min k (lenDescList t.children - 1) = k := by omega
  have hFk : F ≤ k := le_trans hkp (Nat.sub_le _ _)
  have hFlvi : min F (lenDescList t.children - 1) = F := by omega
  have hkL : k < L := by omega
  rcases hfit : countFit cap ((heightsOf t.children).drop F) 0 with ⟨fitc, fith⟩
  have e1 : (countFit cap ((heightsOf t.children).drop F) 0).2 = fith := by rw [hfit]
  have e2 : (countFit cap ((heightsOf t.children).drop F) 0).1 = fitc := by rw [hfit]
  have hml := countFit_lower (heightsOf t.children) cap F (L - F)
    (by omega) (by rw [show F + (L - F) = L from by omega]; exact hL)
  rw [e2] at hml
  have happ2 : apply_scroll_padding_to_selected_index t (some a) cap F (F + fitc) =
      some k := by
    rw [apply_eq_of_offset t a k node cap F (F + fitc) hk, hmin,
      if_neg (by omega), if_neg (by omega), hmin]
  have hidx : (k : Nat) = (apply_scroll_padding_to_selected_index t (some a) cap F
      (F + fitc)).getD F := by
    rw [happ2]
    rfl
  rcases hr1 : fwdOuter (heightsOf t.children) cap k (k + 1) F (F + fitc) fith
    with ⟨f1, l1, h1⟩
  rcases hr2 : backOuter (heightsOf t.children) cap k f1 l1 h1 with ⟨f2, l2, h2⟩
  rw [gib_eq_pipeline t (some a) F cap F fitc fith k f1 l1 h1 f2 l2 h2
    hFlvi.symm hfit hidx hr1 hr2]
  obtain ⟨hc1, hc2, hc3, hc4⟩ := countFit_spec cap
    ((heightsOf t.children).drop F) 0 (Nat.zero_le _)
  have hsum0 : fith = sumRange (heightsOf t.children) F (F + fitc) := by
    rw [← e1, hc2, e2, sum_take_drop]
    omega
  have hcap0 : fith ≤ cap := by
    rw [← e1]
    exact hc3
  have hfw := fwdOuter_spec (heightsOf t.children) cap k (k + 1) F (F + fitc) fith
    hsum0 (by omega) hcap0 (by omega)
  rw [hr1] at hfw
  obtain ⟨hf1, hf2, hf3, hf4, hf5, hf6, hf7, hf8, hf9⟩ := hfw
  have hfwd_noop : (f1, l1, h1) = (F, F + fitc, fith) := hf9 (by omega)
  have hf1e : f1 = F := congrArg (fun p => p.1) hfwd_noop
  have hbk := backOuter_spec (heightsOf t.children) cap k f1 l1 h1 hf5 hf2 hf6
  rw [hr2] at hbk
  obtain ⟨hb1c, hb2c, hb3c, hb4c, hb5c, hb6c, hb7c, hb8c⟩ := hbk
  have hback_noop : (f2, l2, h2) = (f1, l1, h1) := hb8c (by omega)
  have hf2e : f2 = f1 := congrArg (fun p => p.1) hback_noop
  show f2 = F
  omega

/-- The clamped padded selection is a fixed point of the windowing first
component whenever its own item overflows the viewport. -/
theorem gib_stationary_of_tight (t : Tree) (a : TreeIndex) (k : Nat) (node : TreeItem)
    (cap F : Nat)
    (hk : find_offset_of_index t.children a = some (k, node))
    (he : min (k + padReduce (heightsOf t.children) cap (lenDescList t.children - 1)
      k t.scroll_padding) (lenDescList t.children - 1) = F)
    (hbig : sumRange (heightsOf t.children) F (F + 1) > cap) :
    (get_items_bounds t (some a) F cap).1 = F := by
  have hn : (heightsOf t.children).length = lenDescList t.children := heightsOf_length _
  have hkn : k < lenDescList t.children := by
    obtain ⟨k2, hk2e, hk2⟩ := getElem_of_findOffsetScan a node _ 0 k hk
    have hlt := (List.getElem?_eq_some_iff.mp hk2).1
    rw [length_iter_descendants_with_index] at hlt
    omega
  have hklvi : k ≤ lenDescList t.children - 1 := by omega
  have hmin : min k (lenDescList t.children - 1) = k := by omega
  have hkF : k ≤ F := by omega
  have hFlvi : min F (lenDescList t.children - 1) = F := by omega
  rcases hfit : countFit cap ((heightsOf t.children).drop F) 0 with ⟨fitc, fith⟩
  have e1 : (countFit cap ((heightsOf t.children).drop F) 0).2 = fith := by rw [hfit]
  have e2 : (countFit cap ((heightsOf t.children).drop F) 0).1 = fitc := by rw [hfit]
  have hup := countFit_upper (heightsOf t.children) cap F 0 (by simpa using hbig)
  rw [e2] at hup
  have hfitc0 : fitc = 0 := by omega
  have happ2 : apply_scroll_padding_to_selected_index t (some a) cap F (F + fitc) =
      some F := by
    rw [apply_eq_of_offset t a k node cap F (F + fitc) hk, hmin,
      if_pos (by omega), he]
  have hidx : (F : Nat) = (apply_scroll_padding_to_selected_index t (some a) cap F
      (F + fitc)).getD F := by
    rw [happ2]
    rfl
  rcases hr1 : fwdOuter (heightsOf t.children) cap F (F + 1) F (F + fitc) fith
    with ⟨f1, l1, h1⟩
  rcases hr2 : backOuter (heightsOf t.children) cap F f1 l1 h1 with ⟨f2, l2, h2⟩
  rw [gib_eq_pipeline t (some a) F cap F fitc fith F f1 l1 h1 f2 l2 h2
    hFlvi.symm hfit hidx hr1 hr2]
  obtain ⟨hc1, hc2, hc3, hc4⟩ := countFit_spec cap
    ((heightsOf t.children).drop F) 0 (Nat.zero_le _)
  have hsum0 : fith = sumRange (heightsOf t.children) F (F + fitc) := by
    rw [← e1, hc2, e2, sum_take_drop]
    omega
  have hcap0 : fith ≤ cap := by
    rw [← e1]
    exact hc3
  have hfw := fwdOuter_spec (heightsOf t.children) cap F (F + 1) F (F + fitc) fith
    hsum0 (by omega) hcap0 (by omega)
  rw [hr1] at hfw
  obtain ⟨hf1, hf2, hf3, hf4, hf5, hf6, hf7, hf8, hf9⟩ := hfw
  dsimp only at hf1 hf2 hf4 hf5 hf6
  have hl1 : l1 = F + 1 := by omega
  have hf1v : f1 = F + 1 := by
    rcases Nat.lt_or_ge f1 (F + 1) with hlt | hge
    · exfalso
      have hf1F : f1 = F := by omega
      rw [hf1F, hl1] at hf5
      omega
    · omega
  have hbk := backOuter_spec (heightsOf t.children) cap F f1 l1 h1 hf5 hf2 hf6
  rw [hr2] at hbk
  obtain ⟨hb1c, hb2c, hb3c, hb4c, hb5c, hb6c, hb7c, hb8c⟩ := hbk
  dsimp only at hb1c
  show f2 = F
  omega

/-- When no selected offset is resolved, windowing is a function of the clamped
offset alone and its first component is already clamped, so a rerun from that
first component reproduces the whole window. -/
theorem gib_idem_apply_none (t : Tree) (sel : Option TreeIndex) (off cap : Nat)
    (hnone : sel.bind (fun ix => find_offset_of_index t.children ix) = none) :
    get_items_bounds t sel ((get_items_bounds t sel off cap).1) cap =
      get_items_bounds t sel off cap := by
  have happ : ∀ fv lv : Nat,
      apply_scroll_padding_to_selected_index t sel cap fv lv = none := by
    intro fv lv
    unfold apply_scroll_padding_to_selected_index
    dsimp only
    rw [hnone]
  rcases hfit : countFit cap
    ((heightsOf t.children).drop (min off (lenDescList t.children - 1))) 0
    with ⟨fitc, fith⟩
  have e1 : (countFit cap
      ((heightsOf t.children).drop (min off (lenDescList t.children - 1))) 0).2 =
      fith := by rw [hfit]
  have e2 : (countFit cap
      ((heightsOf t.children).drop (min off (lenDescList t.children - 1))) 0).1 =
      fitc := by rw [hfit]
  have hidx : min off (lenDescList t.children - 1) =
      (apply_scroll_padding_to_selected_index t sel cap
        (min off (lenDescList t.children - 1))
        (min off (lenDescList t.children - 1) + fitc)).getD
        (min off (lenDescList t.children - 1)) := by
    rw [happ]
    rfl
  rcases hr1 : fwdOuter (heightsOf t.children) cap (min off (lenDescList t.children - 1))
    (min off (lenDescList t.children - 1) + 1) (min off (lenDescList t.children - 1))
    (min off (lenDescList t.children - 1) + fitc) fith with ⟨f1, l1, h1⟩
  rcases hr2 : backOuter (heightsOf t.children) cap (min off (lenDescList t.children - 1))
    f1 l1 h1 with ⟨f2, l2, h2⟩
  have hpipe := gib_eq_pipeline t sel off cap (min off (lenDescList t.children - 1))
    fitc fith (min off (lenDescList t.children - 1)) f1 l1 h1 f2 l2 h2
    rfl hfit hidx hr1 hr2
  obtain ⟨hc1, hc2, hc3, hc4⟩ := countFit_spec cap
    ((heightsOf t.children).drop (min off (lenDescList t.children - 1))) 0 (Nat.zero_le _)
  have hsum0 : fith = sumRange (heightsOf t.children)
      (min off (lenDescList t.children - 1))
      (min off (lenDescList t.children - 1) + fitc) := by
    rw [← e1, hc2, e2, sum_take_drop]
    omega
  have hcap0 : fith ≤ cap := by
    rw [← e1]
    exact hc3
  have hfw := fwdOuter_spec (heightsOf t.children) cap
    (min off (lenDescList t.children - 1)) (min off (lenDescList t.children - 1) + 1)
    (min off (lenDescList t.children - 1)) (min off (lenDescList t.children - 1) + fitc)
    fith hsum0 (by omega) hcap0 (by omega)
  rw [hr1] at hfw
  obtain ⟨hf1, hf2, hf3, hf4, hf5, hf6, hf7, hf8, hf9⟩ := hfw
  dsimp only at hf1 hf2 hf5 hf6
  have hbk := backOuter_spec (heightsOf t.children) cap
    (min off (lenDescList t.children - 1)) f1 l1 h1 hf5 hf2 hf6
  rw [hr2] at hbk
  obtain ⟨hb1c, hb2c, hb3c, hb4c, hb5c, hb6c, hb7c, hb8c⟩ := hbk
  dsimp only at hb1c
  have hf2v : f2 = min off (lenDescList t.children - 1) := by omega
  calc get_items_bounds t sel ((get_items_bounds t sel off cap).1) cap
      = get_items_bounds t sel f2 cap := by rw [hpipe]
    _ = get_items_bounds t sel off cap := gib_off_eq t sel cap f2 off (by omega)

set_option maxHeartbeats 1600000 in
/-- With a resolved selected offset, the windowing first component is a fixed
point: rerunning from it reproduces it. -/
theorem gib_idem_first_selected (t : Tree) (a : TreeIndex) (k : Nat) (node : TreeItem)
    (off cap : Nat)
    (hk : find_offset_of_index t.children a = some (k, node)) :
    (get_items_bounds t (some a) ((get_items_bounds t (some a) off cap).1) cap).1 =
      (get_items_bounds t (some a) off cap).1 := by
  have hn : (heightsOf t.children).length = lenDescList t.children := heightsOf_length _
  have hkn : k < lenDescList t.children := by
    obtain ⟨k2, hk2e, hk2⟩ := getElem_of_findOffsetScan a node _ 0 k hk
    have hlt := (List.getElem?_eq_some_iff.mp hk2).1
    rw [length_iter_descendants_with_index] at hlt
    omega
  have hklvi : k ≤ lenDescList t.children - 1 := by omega
  have hmin : min k (lenDescList t.children - 1) = k := by omega
  rcases hfit : countFit cap
    ((heightsOf t.children).drop (min off (lenDescList t.children - 1))) 0
    with ⟨fitc, fith⟩
  have e1 : (countFit cap
      ((heightsOf t.children).drop (min off (lenDescList t.children - 1))) 0).2 =
      fith := by rw [hfit]
  have e2 : (countFit cap
      ((heightsOf t.children).drop (min off (lenDescList t.children - 1))) 0).1 =
      fitc := by rw [hfit]
  obtain ⟨hc1, hc2, hc3, hc4⟩ := countFit_spec cap
    ((heightsOf t.children).drop (min off (lenDescList t.children - 1))) 0 (Nat.zero_le _)
  have hsum0 : fith = sumRange (heightsOf t.children)
      (min off (lenDescList t.children - 1))
      (min off (lenDescList t.children - 1) + fitc) := by
    rw [← e1, hc2, e2, sum_take_drop]
    omega
  have hcap0 : fith ≤ cap := by
    rw [← e1]
    exact hc3
  rw [e2, List.length_drop] at hc1
  clear hc2 hc4 e1 e2
  have hPfits := padReduce_fits (heightsOf t.children) cap (lenDescList t.children - 1)
    k t.scroll_padding
  by_cases hb1 : min (k + padReduce (heightsOf t.children) cap
      (lenDescList t.children - 1) k t.scroll_padding) (lenDescList t.children - 1) ≥
      min off (lenDescList t.children - 1) + fitc
  · have happ2 : apply_scroll_padding_to_selected_index t (some a) cap
        (min off (lenDescList t.children - 1))
        (min off (lenDescList t.children - 1) + fitc) =
        some (min (k + padReduce (heightsOf t.children) cap (lenDescList t.children - 1)
          k t.scroll_padding) (lenDescList t.children - 1)) := by
      rw [apply_eq_of_offset t a k node cap (min off (lenDescList t.children - 1))
        (min off (lenDescList t.children - 1) + fitc) hk, hmin, if_pos hb1]
    have hidx : min (k + padReduce (heightsOf t.children) cap
        (lenDescList t.children - 1) k t.scroll_padding) (lenDescList t.children - 1) =
        (apply_scroll_padding_to_selected_index t (some a) cap
          (min off (lenDescList t.children - 1))
          (min off (lenDescList t.children - 1) + fitc)).getD
          (min off (lenDescList t.children - 1)) := by
      rw [happ2]
      rfl
    rcases hr1 : fwdOuter (heightsOf t.children) cap
      (min (k + padReduce (heightsOf t.children) cap (lenDescList t.children - 1)
        k t.scroll_padding) (lenDescList t.children - 1))
      (min (k + padReduce (heightsOf t.children) cap (lenDescList t.children - 1)
        k t.scroll_padding) (lenDescList t.children - 1) + 1)
      (min off (lenDescList t.children - 1))
      (min off (lenDescList t.children - 1) + fitc) fith with ⟨f1, l1, h1⟩
    rcases hr2 : backOuter (heightsOf t.children) cap
      (min (k + padReduce (heightsOf t.children) cap (lenDescList t.children - 1)
        k t.scroll_padding) (lenDescList t.children - 1)) f1 l1 h1 with ⟨f2, l2, h2⟩
    have hpipe := gib_eq_pipeline t (some a) off cap
      (min off (lenDescList t.children - 1)) fitc fith
      (min (k + padReduce (heightsOf t.children) cap (lenDescList t.children - 1)
        k t.scroll_padding) (lenDescList t.children - 1))
      f1 l1 h1 f2 l2 h2 rfl hfit hidx hr1 hr2
    rw [hpipe]
    show (get_items_bounds t (some a) f2 cap).1 = f2
    have hfw := fwdOuter_spec (heightsOf t.children) cap
      (min (k + padReduce (heightsOf t.children) cap (lenDescList t.children - 1)
        k t.scroll_padding) (lenDescList t.children - 1))
      (min (k + padReduce (heightsOf t.children) cap (lenDescList t.children - 1)
        k t.scroll_padding) (lenDescList t.children - 1) + 1)
      (min off (lenDescList t.children - 1))
      (min off (lenDescList t.children - 1) + fitc) fith hsum0 (by omega) hcap0 (by omega)
    rw [hr1] at hfw
    obtain ⟨hf1, hf2, hf3, hf4, hf5, hf6, hf7, hf8, hf9⟩ := hfw
    dsimp only at hf1 hf2 hf3 hf4 hf5 hf6 hf8
    have hbk := backOuter_spec (heightsOf t.children) cap
      (min (k + padReduce (heightsOf t.children) cap (lenDescList t.children - 1)
        k t.scroll_padding) (lenDescList t.children - 1)) f1 l1 h1 hf5 hf2 hf6
    rw [hr2] at hbk
    obtain ⟨hb1c, hb2c, hb3c, hb4c, hb5c, hb6c, hb7c, hb8c⟩ := hbk
    dsimp only at hb1c hb2c hb3c hb4c hb5c
    have hl1 : l1 = min (k + padReduce (heightsOf t.children) cap
        (lenDescList t.children - 1) k t.scroll_padding)
        (lenDescList t.children - 1) + 1 := by
      omega
    by_cases hf1le : f1 ≤ min (k + padReduce (heightsOf t.children) cap
        (lenDescList t.children - 1) k t.scroll_padding) (lenDescList t.children - 1)
    · have hback_noop : (f2, l2, h2) = (f1, l1, h1) := hb8c hf1le
      have hf2l : f2 = f1 := congrArg (fun p => p.1) hback_noop
      by_cases hf1off : f1 = min off (lenDescList t.children - 1)
      · have hoffeq : get_items_bounds t (some a) f2 cap =
            get_items_bounds t (some a) off cap :=
          gib_off_eq t (some a) cap f2 off (by omega)
        rw [hoffeq, hpipe]
      · have hfkp : f1 ≤ k - padReduce (heightsOf t.children) cap
            (lenDescList t.children - 1) k t.scroll_padding := by
          by_cases hP0 : padReduce (heightsOf t.children) cap
              (lenDescList t.children - 1) k t.scroll_padding = 0
          · omega
          · rcases hPfits with hz | hW
            · exact absurd hz hP0
            · by_cases hko : min off (lenDescList t.children - 1) ≤
                  k - padReduce (heightsOf t.children) cap (lenDescList t.children - 1)
                    k t.scroll_padding
              · have hgood : f1 ≤ k - padReduce (heightsOf t.children) cap
                    (lenDescList t.children - 1) k t.scroll_padding :=
                  hf7 _ hko (by
                    rw [show max (min off (lenDescList t.children - 1) + fitc)
                      (min (k + padReduce (heightsOf t.children) cap
                        (lenDescList t.children - 1) k t.scroll_padding)
                        (lenDescList t.children - 1) + 1) =
                      min (k + padReduce (heightsOf t.children) cap
                        (lenDescList t.children - 1) k t.scroll_padding)
                        (lenDescList t.children - 1) + 1 from by omega]
                    exact hW)
                exact hgood
              · exfalso
                have hWo : sumRange (heightsOf t.children)
                    (min off (lenDescList t.children - 1))
                    (min (k + padReduce (heightsOf t.children) cap
                      (lenDescList t.children - 1) k t.scroll_padding)
                      (lenDescList t.children - 1) + 1) ≤ cap :=
                  le_trans (sumRange_mono_lo (by omega)) hW
                have hgood : f1 ≤ min off (lenDescList t.children - 1) :=
                  hf7 _ le_rfl (by
                    rw [show max (min off (lenDescList t.children - 1) + fitc)
                      (min (k + padReduce (heightsOf t.children) cap
                        (lenDescList t.children - 1) k t.scroll_padding)
                        (lenDescList t.children - 1) + 1) =
                      min (k + padReduce (heightsOf t.children) cap
                        (lenDescList t.children - 1) k t.scroll_padding)
                        (lenDescList t.children - 1) + 1 from by omega]
                    exact hWo)
                omega
        have hL : sumRange (heightsOf t.children) f1
            (min (k + padReduce (heightsOf t.children) cap (lenDescList t.children - 1)
              k t.scroll_padding) (lenDescList t.children - 1) + 1) ≤ cap := by
          rw [← hl1, ← hf5]
          exact hf6
        have hst := gib_stationary_of_fits t a k node cap f1
          (min (k + padReduce (heightsOf t.children) cap (lenDescList t.children - 1)
            k t.scroll_padding) (lenDescList t.children - 1) + 1) hk hfkp hL
          (by omega) (by omega)
        rw [hf2l]
        exact hst
    · have hf1v : f1 = min (k + padReduce (heightsOf t.children) cap
          (lenDescList t.children - 1) k t.scroll_padding)
          (lenDescList t.children - 1) + 1 := by omega
      have htight : sumRange (heightsOf t.children)
          (min (k + padReduce (heightsOf t.children) cap (lenDescList t.children - 1)
            k t.scroll_padding) (lenDescList t.children - 1))
          (min (k + padReduce (heightsOf t.children) cap (lenDescList t.children - 1)
            k t.scroll_padding) (lenDescList t.children - 1) + 1) > cap := by
        rcases hf8 with h8 | h8
        · exfalso
          omega
        · rw [hf1v, hl1, Nat.add_sub_cancel] at h8
          exact h8
      have hf2v : f2 = min (k + padReduce (heightsOf t.children) cap
          (lenDescList t.children - 1) k t.scroll_padding)
          (lenDescList t.children - 1) := by omega
      have hst := gib_stationary_of_tight t a k node cap
        (min (k + padReduce (heightsOf t.children) cap (lenDescList t.children - 1)
          k t.scroll_padding) (lenDescList t.children - 1)) hk rfl htight
      rw [hf2v]
      exact hst
  · by_cases hb2 : k - padReduce (heightsOf t.children) cap
        (lenDescList t.children - 1) k t.scroll_padding <
        min off (lenDescList t.children - 1)
    · have happ2 : apply_scroll_padding_to_selected_index t (some a) cap
          (min off (lenDescList t.children - 1))
          (min off (lenDescList t.children - 1) + fitc) =
          some (k - padReduce (heightsOf t.children) cap (lenDescList t.children - 1)
            k t.scroll_padding) := by
        rw [apply_eq_of_offset t a k node cap (min off (lenDescList t.children - 1))
          (min off (lenDescList t.children - 1) + fitc) hk, hmin, if_neg hb1,
          if_pos hb2,
          show min (k - padReduce (heightsOf t.children) cap (lenDescList t.children - 1)
            k t.scroll_padding) (lenDescList t.children - 1) =
            k - padReduce (heightsOf t.children) cap (lenDescList t.children - 1)
              k t.scroll_padding from by omega]
      have hidx : k - padReduce (heightsOf t.children) cap
          (lenDescList t.children - 1) k t.scroll_padding =
          (apply_scroll_padding_to_selected_index t (some a) cap
            (min off (lenDescList t.children - 1))
            (min off (lenDescList t.children - 1) + fitc)).getD
            (min off (lenDescList t.children - 1)) := by
        rw [happ2]
        rfl
      rcases hr1 : fwdOuter (heightsOf t.children) cap
        (k - padReduce (heightsOf t.children) cap (lenDescList t.children - 1)
          k t.scroll_padding)
        (k - padReduce (heightsOf t.children) cap (lenDescList t.children - 1)
          k t.scroll_padding + 1)
        (min off (lenDescList t.children - 1))
        (min off (lenDescList t.children - 1) + fitc) fith with ⟨f1, l1, h1⟩
      rcases hr2 : backOuter (heightsOf t.children) cap
        (k - padReduce (heightsOf t.children) cap (lenDescList t.children - 1)
          k t.scroll_padding) f1 l1 h1 with ⟨f2, l2, h2⟩
      have hpipe := gib_eq_pipeline t (some a) off cap
        (min off (lenDescList t.children - 1)) fitc fith
        (k - padReduce (heightsOf t.children) cap (lenDescList t.children - 1)
          k t.scroll_padding)
        f1 l1 h1 f2 l2 h2 rfl hfit hidx hr1 hr2
      rw [hpipe]
      show (get_items_bounds t (some a) f2 cap).1 = f2
      have hfw := fwdOuter_spec (heightsOf t.children) cap
        (k - padReduce (heightsOf t.children) cap (lenDescList t.children - 1)
          k t.scroll_padding)
        (k - padReduce (heightsOf t.children) cap (lenDescList t.children - 1)
          k t.scroll_padding + 1)
        (min off (lenDescList t.children - 1))
        (min off (lenDescList t.children - 1) + fitc) fith hsum0 (by omega) hcap0 (by omega)
      rw [hr1] at hfw
      obtain ⟨hf1, hf2, hf3, hf4, hf5, hf6, hf7, hf8, hf9⟩ := hfw
      have hbk := backOuter_spec (heightsOf t.children) cap
        (k - padReduce (heightsOf t.children) cap (lenDescList t.children - 1)
          k t.scroll_padding) f1 l1 h1 hf5 hf2 hf6
      rw [hr2] at hbk
      obtain ⟨hb1c, hb2c, hb3c, hb4c, hb5c, hb6c, hb7c, hb8c⟩ := hbk
      dsimp only at hb1c hb2c hb3c hb4c hb5c
      have hfwd_noop : (f1, l1, h1) =
          (min off (lenDescList t.children - 1),
           min off (lenDescList t.children - 1) + fitc, fith) := hf9 (by omega)
      have hf1v : f1 = min off (lenDescList t.children - 1) :=
        congrArg (fun p => p.1) hfwd_noop
      have hl1v : l1 = min off (lenDescList t.children - 1) + fitc :=
        congrArg (fun p => p.2.1) hfwd_noop
      have hf2v : f2 = k - padReduce (heightsOf t.children) cap
          (lenDescList t.children - 1) k t.scroll_padding := by omega
      have hcapl2 : sumRange (heightsOf t.children)
          (k - padReduce (heightsOf t.children) cap (lenDescList t.children - 1)
            k t.scroll_padding) l2 ≤ cap := by
        rw [← hf2v, ← hb4c]
        exact hb5c
      have hl2n : l2 ≤ lenDescList t.children := by omega
      by_cases hP0 : padReduce (heightsOf t.children) cap
          (lenDescList t.children - 1) k t.scroll_padding = 0
      · by_cases hsk : sumRange (heightsOf t.children) k (k + 1) ≤ cap
        · have hkl2 : k < l2 := hb7c k (by
            rw [show min f1 (k - padReduce (heightsOf t.children) cap
              (lenDescList t.children - 1) k t.scroll_padding) = k from by omega]
            exact hsk) (by omega)
          have hst := gib_stationary_of_fits t a k node cap
            (k - padReduce (heightsOf t.children) cap (lenDescList t.children - 1)
              k t.scroll_padding) l2 hk le_rfl hcapl2 (by omega) hl2n
          rw [hf2v]
          exact hst
        · push_neg at hsk
          have hst := gib_stationary_of_tight t a k node cap k hk (by omega) hsk
          have hf2k : f2 = k := by omega
          rw [hf2k]
          exact hst
      · rcases hPfits with hz | hW
        · exact absurd hz hP0
        · have hkl2 : min (k + padReduce (heightsOf t.children) cap
              (lenDescList t.children - 1) k t.scroll_padding)
              (lenDescList t.children - 1) < l2 :=
            hb7c _ (by
              rw [show min f1 (k - padReduce (heightsOf t.children) cap
                (lenDescList t.children - 1) k t.scroll_padding) =
                k - padReduce (heightsOf t.children) cap (lenDescList t.children - 1)
                  k t.scroll_padding from by omega]
              exact hW) (by omega)
          have hst := gib_stationary_of_fits t a k node cap
            (k - padReduce (heightsOf t.children) cap (lenDescList t.children - 1)
              k t.scroll_padding) l2 hk le_rfl hcapl2 hkl2 hl2n
          rw [hf2v]
          exact hst
    · have happ2 : apply_scroll_padding_to_selected_index t (some a) cap
          (min off (lenDescList t.children - 1))
          (min off (lenDescList t.children - 1) + fitc) = some k := by
        rw [apply_eq_of_offset t a k node cap (min off (lenDescList t.children - 1))
          (min off (lenDescList t.children - 1) + fitc) hk, hmin, if_neg hb1,
          if_neg hb2, hmin]
      have hidx : (k : Nat) =
          (apply_scroll_padding_to_selected_index t (some a) cap
            (min off (lenDescList t.children - 1))
            (min off (lenDescList t.children - 1) + fitc)).getD
            (min off (lenDescList t.children - 1)) := by
        rw [happ2]
        rfl
      rcases hr1 : fwdOuter (heightsOf t.children) cap k (k + 1)
        (min off (lenDescList t.children - 1))
        (min off (lenDescList t.children - 1) + fitc) fith with ⟨f1, l1, h1⟩
      rcases hr2 : backOuter (heightsOf t.children) cap k f1 l1 h1 with ⟨f2, l2, h2⟩
      have hpipe := gib_eq_pipeline t (some a) off cap
        (min off (lenDescList t.children - 1)) fitc fith k
        f1 l1 h1 f2 l2 h2 rfl hfit hidx hr1 hr2
      rw [hpipe]
      show (get_items_bounds t (some a) f2 cap).1 = f2
      have hfw := fwdOuter_spec (heightsOf t.children) cap k (k + 1)
        (min off (lenDescList t.children - 1))
        (min off (lenDescList t.children - 1) + fitc) fith hsum0 (by omega) hcap0 (by omega)
      rw [hr1] at hfw
      obtain ⟨hf1, hf2, hf3, hf4, hf5, hf6, hf7, hf8, hf9⟩ := hfw
      have hbk := backOuter_spec (heightsOf t.children) cap k f1 l1 h1 hf5 hf2 hf6
      rw [hr2] at hbk
      obtain ⟨hb1c, hb2c, hb3c, hb4c, hb5c, hb6c, hb7c, hb8c⟩ := hbk
      have hfwd_noop : (f1, l1, h1) =
          (min off (lenDescList t.children - 1),
           min off (lenDescList t.children - 1) + fitc, fith) := hf9 (by omega)
      have hf1v : f1 = min off (lenDescList t.children - 1) :=
        congrArg (fun p => p.1) hfwd_noop
      have hback_noop : (f2, l2, h2) = (f1, l1, h1) := hb8c (by omega)
      have hf2l : f2 = f1 := congrArg (fun p => p.1) hback_noop
      have hoffeq : get_items_bounds t (some a) f2 cap =
          get_items_bounds t (some a) off cap :=
        gib_off_eq t (some a) cap f2 off (by omega)
      rw [hoffeq, hpipe]

/-- C5 (corrected): rerunning the windowing computation with its own returned
first component as the previous scroll offset reproduces that first component
for every selection, and reproduces the entire window whenever no node is
selected. (The full window is not reproduced for every selection; see the
counterexample.) -/
theorem C5_windowing_idempotence (t : Tree) (sel : Option TreeIndex) (off cap : Nat) :
    (get_items_bounds t sel ((get_items_bounds t sel off cap).1) cap).1 =
      (get_items_bounds t sel off cap).1 ∧
    get_items_bounds t none ((get_items_bounds t none off cap).1) cap =
      get_items_bounds t none off cap := by
  constructor
  · cases sel with
    | none => rw [gib_idem_apply_none t none off cap rfl]
    | some a =>
      cases hk : find_offset_of_index t.children a with
      | none => rw [gib_idem_apply_none t (some a) off cap hk]
      | some r => exact gib_idem_first_selected t a r.1 r.2 off cap (by rw [hk])
  · exact gib_idem_apply_none t none off cap rfl

/-- C5 counterexample: three items of heights 2, 1, 1, viewport capacity 2, no
scroll padding, selection at offset 1, previous offset 0. The first run
returns the window (1, 2); rerunning from offset 1 returns (1, 3). -/
theorem C5_windowing_idempotence_counterexample :
    get_items_bounds ⟨[TreeItem.mk 2 [], TreeItem.mk 1 [], TreeItem.mk 1 []], 0⟩
        (some ⟨[1]⟩)
        ((get_items_bounds ⟨[TreeItem.mk 2 [], TreeItem.mk 1 [], TreeItem.mk 1 []], 0⟩
          (some ⟨[1]⟩) 0 2).1) 2 ≠
      get_items_bounds ⟨[TreeItem.mk 2 [], TreeItem.mk 1 [], TreeItem.mk 1 []], 0⟩
        (some ⟨[1]⟩) 0 2 := by
  decide

end Rebased
